import Mathlib

/-!
Verification development for `topo_order_commits.py`: a tool that reconstructs
the commit graph of a git repository from its loose object store and prints a
deterministic topological ordering of all commits reachable from the branch
tips, annotated with branch names and "sticky" discontinuity markers.

The Python source is shallowly embedded below.  Python `dict`s are modelled as
insertion-ordered association lists, Python `set`s of strings as duplicate-free
lists together with an explicit enumeration function `enum` standing for the
(hash-seed dependent) iteration order of a CPython `set`; wherever the source
only tests membership or emptiness of a set the list order is unobservable.
File-system state is modelled explicitly: the `refs/heads` subtree as an
optional list of (relative path, file content) pairs and the object store as an
association list keyed by the `<first two hash chars>/<remaining chars>` path,
holding the already-decompressed object bytes (`zlib.decompress` is consumed as
a black box by the program and is not re-specified here).
-/

set_option maxRecDepth 16384

/-- Characters matched by Python's regex class `\s` (ASCII range; the source
only ever feeds it text decoded from commit objects). -/
def pySpace (c : Char) : Bool :=
  c == ' ' || c == '\t' || c == '\n' || c == '\r' || c == '\x0b' || c == '\x0c'

/-- Characters matched by `[0-9a-f]` under `re.I`. -/
def hexDigit (c : Char) : Bool :=
  ('0' ≤ c && c ≤ '9') || ('a' ≤ c && c ≤ 'f') || ('A' ≤ c && c ≤ 'F')

/-- Case-insensitive comparison of one character against a lowercase/uppercase
pair, as `re.I` treats the literal letters of `parent`. -/
def ciIs (c lo hi : Char) : Bool := c == lo || c == hi

/-- Attempt to match the regex `parent\s([0-9a-f]{40})$` (flags `re.I | re.M`)
at the start of `s`; the caller is responsible for the `^` anchor.  Returns the
captured 40 hex characters.  A successful match always consumes exactly 47
characters (`$` is zero-width). -/
def matchParent (s : List Char) : Option (List Char) :=
  match s with
  | c1 :: c2 :: c3 :: c4 :: c5 :: c6 :: w :: rest =>
    if ciIs c1 'p' 'P' && ciIs c2 'a' 'A' && ciIs c3 'r' 'R' && ciIs c4 'e' 'E'
        && ciIs c5 'n' 'N' && ciIs c6 't' 'T' && pySpace w then
      let cap := rest.take 40
      if cap.length == 40 && cap.all hexDigit then
        match rest.drop 40 with
        | [] => some cap
        | c :: _ => if c = '\n' then some cap else none
      else none
    else none
  | _ => none

/-- Left-to-right non-overlapping scan of `re.findall` for the pattern
`^parent\s([0-9a-f]{40})$` with `re.I | re.M`: `atStart` records whether the
current position is the start of the text or immediately after a `'\n'`
(the multiline `^`).  After a match, scanning resumes just past the 40th hex
digit (47 characters after the match start). -/
def findallAux : Nat → List Char → Bool → List String
  | 0, _, _ => []
  | _, [], _ => []
  | fuel + 1, c :: cs, atStart =>
    if atStart then
      match matchParent (c :: cs) with
      | some cap => String.mk cap :: findallAux fuel (cs.drop 46) false
      | none => findallAux fuel cs (c == '\n')
    else findallAux fuel cs (c == '\n')

/-- `parent_regex.findall(decompressed_contents)` from `get_graph`
(`src/topo_order_commits.py:116,128`): all captures of
`^parent\s([0-9a-f]{40})$` (`re.I | re.M`) in textual order.  The fuel equals
the text length: every iteration consumes at least one character, so the scan
always runs to the end of the text. -/
def findallParents (s : List Char) : List String := findallAux s.length s true

/-- Split a text into its `'\n'`-separated lines. -/
def splitLines (s : List Char) : List (List Char) :=
  match s with
  | [] => [[]]
  | c :: cs =>
    if c = '\n' then [] :: splitLines cs
    else
      match splitLines cs with
      | [] => [[c]]
      | l :: ls => (c :: l) :: ls

/-- Parent extraction as the claim words it (for comparison against
`findallParents`): the identifiers on lines consisting of the literal marker
`parent`, a single space, and exactly 40 hexadecimal characters (hex digits
case-insensitive). -/
def specParentLines (s : List Char) : List String :=
  (splitLines s).filterMap fun l =>
    match l with
    | 'p' :: 'a' :: 'r' :: 'e' :: 'n' :: 't' :: ' ' :: h =>
      if h.length == 40 && h.all hexDigit then some (String.mk h) else none
    | _ => none

/-- Is `b` a UTF-8 continuation byte? -/
def utf8Cont (b : Nat) : Bool := 0x80 ≤ b && b ≤ 0xBF

/-- `bytes.decode('utf-8', errors='ignore')` from `get_graph`
(`src/topo_order_commits.py:125,126`): total UTF-8 decoding in which every
maximal ill-formed subpart is skipped (dropped) and decoding continues with the
next byte.  Well-formedness of multi-byte sequences follows the UTF-8 table
(no overlongs, no surrogates, max U+10FFFF). -/
def decodeIgnore : List Nat → List Char
  | [] => []
  | b :: bs =>
    if b < 0x80 then Char.ofNat b :: decodeIgnore bs
    else if 0xC2 ≤ b && b ≤ 0xDF then
      match bs with
      | [] => []
      | b2 :: bs2 =>
        if utf8Cont b2 then
          Char.ofNat ((b - 0xC0) * 0x40 + (b2 - 0x80)) :: decodeIgnore bs2
        else decodeIgnore (b2 :: bs2)
    else if 0xE0 ≤ b && b ≤ 0xEF then
      match bs with
      | [] => []
      | b2 :: bs2 =>
        if (if b = 0xE0 then 0xA0 else 0x80) ≤ b2 && b2 ≤ (if b = 0xED then 0x9F else 0xBF) then
          match bs2 with
          | [] => []
          | b3 :: bs3 =>
            if utf8Cont b3 then
              Char.ofNat ((b - 0xE0) * 0x1000 + (b2 - 0x80) * 0x40 + (b3 - 0x80)) :: decodeIgnore bs3
            else decodeIgnore (b3 :: bs3)
        else decodeIgnore (b2 :: bs2)
    else if 0xF0 ≤ b && b ≤ 0xF4 then
      match bs with
      | [] => []
      | b2 :: bs2 =>
        if (if b = 0xF0 then 0x90 else 0x80) ≤ b2 && b2 ≤ (if b = 0xF4 then 0x8F else 0xBF) then
          match bs2 with
          | [] => []
          | b3 :: bs3 =>
            if utf8Cont b3 then
              match bs3 with
              | [] => []
              | b4 :: bs4 =>
                if utf8Cont b4 then
                  Char.ofNat ((b - 0xF0) * 0x40000 + (b2 - 0x80) * 0x1000
                    + (b3 - 0x80) * 0x40 + (b4 - 0x80)) :: decodeIgnore bs4
                else decodeIgnore (b4 :: bs4)
            else decodeIgnore (b3 :: bs3)
        else decodeIgnore (b2 :: bs2)
    else decodeIgnore bs

/-- `CommitNode` (`src/topo_order_commits.py:149-194`): one commit, with its
hash and its parent/children hash sets.  The Python `set`s are modelled as
duplicate-free lists; their CPython iteration order is hash-seed dependent and
is supplied separately (the `enum` parameter of the sorter and formatter)
wherever the source iterates over a set. -/
structure CommitNode where
  commit_hash : String
  parents : List String
  children : List String
deriving DecidableEq, Repr

/-- `CommitNode.__init__`: fresh node with empty parent/children sets. -/
def CommitNode.mkNew (h : String) : CommitNode := ⟨h, [], []⟩

/-- `rm_parent`: `self.parents.discard(parent_hash)`. -/
def CommitNode.rm_parent (n : CommitNode) (p : String) : CommitNode :=
  { n with parents := n.parents.filter (fun q => q != p) }

/-- `add_child`: `self.children.add(child_hash)` (a no-op when already
present, since `children` is a set). -/
def CommitNode.add_child (n : CommitNode) (c : String) : CommitNode :=
  if c ∈ n.children then n else { n with children := n.children ++ [c] }

/-- `set_parents`: `self.parents = set(parent_hashes)`.  Only membership and
emptiness of this set are ever observed downstream, so the duplicate-free
list `parent_hashes.dedup` models it. -/
def CommitNode.set_parents (n : CommitNode) (ps : List String) : CommitNode :=
  { n with parents := ps.dedup }

/-- The `graph` dict of `get_graph`: commit hash to `CommitNode`, as an
insertion-ordered association list (Python 3.7+ dict semantics). -/
abbrev Graph := List (String × CommitNode)

/-- Dict lookup `graph[h]` (first entry with the key). -/
def lookupNode : Graph → String → Option CommitNode
  | [], _ => none
  | e :: g, h => if e.1 = h then some e.2 else lookupNode g h

/-- `if h not in graph: graph[h] = CommitNode(h)` — inserts at the end,
preserving dict insertion order. -/
def insertNode (g : Graph) (h : String) : Graph :=
  match lookupNode g h with
  | some _ => g
  | none => g ++ [(h, CommitNode.mkNew h)]

/-- In-place mutation of the node stored under `h` (Python mutates the shared
node object; dict order and keys are unchanged). -/
def updateNode (g : Graph) (h : String) (f : CommitNode → CommitNode) : Graph :=
  g.map (fun e => if e.1 = h then (e.1, f e.2) else e)

/-- The keys of the graph in insertion order. -/
def graphKeys (g : Graph) : List String := g.map (fun e => e.1)

/-- The loose object store: `.git/objects/<first 2 hash chars>/<remaining 38>`
with the file's decompressed bytes (`zlib.decompress` is a black box consumed
by the program, so the store is modelled post-decompression). -/
abbrev ObjectStore := List ((List Char × List Char) × List Nat)

/-- The path pair `commit_hash[0:2] / commit_hash[2:]`
(`src/topo_order_commits.py:123`). -/
def objectPath (h : String) : List Char × List Char := (h.data.take 2, h.data.drop 2)

/-- Look up a path pair in the store (first entry wins). -/
def lookupStore : ObjectStore → (List Char × List Char) → Option (List Nat)
  | [], _ => none
  | e :: rest, k => if e.1 = k then some e.2 else lookupStore rest k

/-- `open(objects / commit_hash[0:2] / commit_hash[2:], 'rb')` followed by
`file.read()`: `none` means the open raises `FileNotFoundError`. -/
def openObject (store : ObjectStore) (h : String) : Option (List Nat) :=
  lookupStore store (objectPath h)

/-- The parent identifiers a commit object declares: decompress (elided),
decode permissively, scan with the parent regex. -/
def declaredParents (store : ObjectStore) (h : String) : List String :=
  match openObject store h with
  | some bs => findallParents (decodeIgnore bs)
  | none => []

/-- Errors of the loader: a missing object file (`FileNotFoundError` from
`open`), the two arms of the final visited-count check
(`src/topo_order_commits.py:143-145`), plus the fuel marker of this embedding
(proved unreachable below). -/
inductive LoadError
  | fileNotFound (h : String)
  | notAllVisited
  | visitedTooMany
  | fuelExhausted
deriving DecidableEq, Repr

/-- Body of `for parent in parent_hashes:` (`src/topo_order_commits.py:135-140`):
push unvisited parents onto the work list (modelled head-first, matching
`list.append` + `list.pop` stack discipline), create missing parent nodes, and
add the current commit to each parent's children set. -/
def visitParents (hsh : String) (visited : List String) :
    List String → List String × Graph → List String × Graph
  | [], st => st
  | p :: ps, (tv, g) =>
    let tv2 := if p ∈ visited then tv else p :: tv
    let g2 := updateNode (insertNode g p) p (fun n => n.add_child hsh)
    visitParents hsh visited ps (tv2, g2)

/-- The `while to_visit:` loop of `get_graph` (`src/topo_order_commits.py:117-146`),
with an explicit fuel so the function is total even on adversarial stores; the
work list is head-first (Python appends to and pops from the end).  The last
component accumulates the hashes whose objects were opened and decoded, newest
first.  On work-list exhaustion the visited-count check of lines 143-145 runs. -/
def loadLoop (store : ObjectStore) :
    Nat → List String → List String → Graph → List String →
    Option (Except LoadError Graph × List String)
  | _, [], visited, g, decoded =>
    if visited.length = g.length then some (.ok g, decoded)
    else if visited.length < g.length then some (.error .notAllVisited, decoded)
    else some (.error .visitedTooMany, decoded)
  | 0, _ :: _, _, _, _ => none
  | fuel + 1, h :: rest, visited, g, decoded =>
    if h ∈ visited then loadLoop store fuel rest visited g decoded
    else
      match openObject store h with
      | none => some (.error (.fileNotFound h), decoded)
      | some bs =>
        let parents := findallParents (decodeIgnore bs)
        let g2 := updateNode (insertNode g h) h (fun n => n.set_parents parents)
        let st := visitParents h visited parents (rest, g2)
        loadLoop store fuel st.1 (h :: visited) st.2 (h :: decoded)

/-- The initial work list `list(heads.values())`, head-first (reversed, since
Python pops from the end). -/
def initVisit (heads : List (String × String)) : List String :=
  (heads.map (fun e => e.2)).reverse

/-- Number of parent lines an object contributes to the traversal. -/
def entryCost (e : (List Char × List Char) × List Nat) : Nat :=
  (findallParents (decodeIgnore e.2)).length

/-- Fuel that always suffices for `loadLoop` (proved below): one step per
initial work-list entry plus one per parent line of any stored object. -/
def fuelBound (store : ObjectStore) (heads : List (String × String)) : Nat :=
  (initVisit heads).length + (store.map entryCost).sum

/-- `get_graph(heads, git_dir)` (`src/topo_order_commits.py:97-146`). -/
def getGraphR (store : ObjectStore) (heads : List (String × String)) :
    Except LoadError Graph :=
  match loadLoop store (fuelBound store heads) (initVisit heads) [] [] [] with
  | some r => r.1
  | none => .error .fuelExhausted

/-- Errors of the sorter: a `KeyError` on `commit_nodes[child_hash]`
(impossible on loader outputs, proved below) and the
`'Sort is not a bijection'` check (`src/topo_order_commits.py:227-228`). -/
inductive SortError
  | keyError (h : String)
  | sortNotBijection
deriving DecidableEq, Repr

/-- Body of `for child_hash in parent.get_children():`
(`src/topo_order_commits.py:221-225`): remove the emitted parent from each
child's parent set and push children whose parent set became empty (Python
appends node objects to `root_nodes`; the node under key `child_hash` is
pushed here by its key). -/
def processChildren (parentHash : String) :
    List String → Graph → List String → Except SortError (Graph × List String)
  | [], g, roots => .ok (g, roots)
  | c :: cs, g, roots =>
    match lookupNode g c with
    | none => .error (.keyError c)
    | some n =>
      let n2 := n.rm_parent parentHash
      let g2 := updateNode g c (fun m => m.rm_parent parentHash)
      processChildren parentHash cs g2 (if n2.parents.isEmpty then c :: roots else roots)

/-- The `while root_nodes:` loop of `topo_order_commits`
(`src/topo_order_commits.py:218-228`), with fuel for totality.  `enum` stands
for CPython's hash-seed dependent iteration order over the `children` set.
The accumulator prepends, so on success it is `topo_sorted` already reversed
(the source reverses explicitly at line 231); the final length check of lines
227-228 compares against the dict size.  Returns the mutated graph as well,
since the formatter reads `children` from the same node objects. -/
def sortLoop (enum : List String → List String) :
    Nat → Graph → List String → List String →
    Option (Except SortError (List String × Graph))
  | _, g, [], acc =>
    some (if acc.length = g.length then .ok (acc, g) else .error .sortNotBijection)
  | 0, _, _ :: _, _ => none
  | fuel + 1, g, h :: rest, acc =>
    match lookupNode g h with
    | none => some (.error (.keyError h))
    | some n =>
      match processChildren n.commit_hash (enum n.children) g rest with
      | .error e => some (.error e)
      | .ok (g2, roots2) => sortLoop enum fuel g2 roots2 (n.commit_hash :: acc)

/-- `root_nodes = [node for node in commit_nodes.values() if not node.get_parents()]`
(`src/topo_order_commits.py:215-217`), head-first for stack discipline. -/
def initRoots (g : Graph) : List String :=
  ((g.filter (fun e => e.2.parents.isEmpty)).map (fun e => e.2.commit_hash)).reverse

/-- Fuel that suffices for `sortLoop` on loader outputs. -/
def sortFuel (g : Graph) : Nat :=
  g.length + (g.map (fun e => e.2.children.length)).sum + 1

/-- `' '.join(...)`. -/
def joinSpace (l : List String) : String := String.intercalate (" ") l

/-- Code-point lexicographic comparison of character lists: the order Python
uses to compare `str` values (and, for the sorted paths below, `Path` values
sharing a common prefix). -/
def lexLe : List Char → List Char → Bool
  | [], _ => true
  | _ :: _, [] => false
  | a :: as, b :: bs => if a < b then true else if b < a then false else lexLe as bs

/-- Python's `<=` on strings, computably (proved below to agree with the
lexicographic order `String` carries). -/
def strLe (a b : String) : Bool := lexLe a.data b.data

/-- `node.get_children()` for the node stored under `h` (the source holds the
node object itself; on loader/sorter outputs the key always resolves). -/
def childrenOf (g : Graph) (h : String) : List String :=
  match lookupNode g h with
  | some n => n.children
  | none => []

/-- Branch annotations of one output line (`src/topo_order_commits.py:237-243`):
if any branch points at this commit, append every such branch name in sorted
order, each preceded by one space. -/
def branchTags (heads : List (String × String)) (h : String) : String :=
  if h ∈ heads.map (fun e => e.2) then
    String.join (((List.insertionSort (fun a b => strLe a b = true)
      ((heads.filter (fun e => e.2 == h)).map (fun e => e.1))).map (fun name => (" ") ++ name)))
  else ("")

/-- The sticky discontinuity block (`src/topo_order_commits.py:245-251`): the
concatenation of the two `sys.stdout.write` calls
`'\n' + ' '.join(parent_hashes) + '=\n'` and
`'\n=' + ' '.join(next_node.get_children())`, where `parent_hashes` collects,
in output order, every node of the final sequence whose children contain the
current hash, and the children set of the following commit is joined in set
iteration order `enum`. -/
def stickyBlock (enum : List String → List String) (g : Graph)
    (order : List String) (h nxt : String) : String :=
  ("\n") ++ joinSpace (order.filter (fun oh => decide (h ∈ childrenOf g oh)))
    ++ ("=\n") ++ ("\n=") ++ joinSpace (enum (childrenOf g nxt))

/-- `zip(topo_sorted, topo_sorted[1:] + [None])` (`src/topo_order_commits.py:233`). -/
def pairsWithNext : List String → List (String × Option String)
  | [] => []
  | [a] => [(a, none)]
  | a :: b :: rest => (a, some b) :: pairsWithNext (b :: rest)

/-- One iteration of the output loop (`src/topo_order_commits.py:233-252`):
the commit hash, its branch annotations, the sticky block when there is a
following commit whose children do not contain this hash, and the terminating
newline. -/
def formatChunk (enum : List String → List String) (heads : List (String × String))
    (g : Graph) (order : List String) (pr : String × Option String) : String :=
  pr.1 ++ branchTags heads pr.1 ++
    (match pr.2 with
     | none => ("")
     | some nxt =>
       if pr.1 ∈ childrenOf g nxt then ("") else stickyBlock enum g order pr.1 nxt)
    ++ ("\n")

/-- Everything written to stdout by the output loop. -/
def formatOutput (enum : List String → List String) (heads : List (String × String))
    (g : Graph) (order : List String) : String :=
  String.join ((pairsWithNext order).map (formatChunk enum heads g order))

/-- The `refs/heads` subtree (`none`: absent) and the object store: the
repository state visible to the program.  Files under `refs/heads` are listed
as (relative POSIX path, file content); `Path.rglob` enumerates only these
(directories are filtered out by `is_file`). -/
structure RepoState where
  refsHeads : Option (List (String × String))
  store : ObjectStore

/-- `first_line(file_path)` (`src/topo_order_commits.py:84-94`):
`file.readline().strip()`. -/
def first_line (content : String) : String :=
  String.mk (((content.data.takeWhile (fun c => c != '\n')).dropWhile pySpace).reverse.dropWhile pySpace).reverse

/-- `get_branches(git_dir)` (`src/topo_order_commits.py:67-81`): `Path.rglob`
yields nothing when the branch-heads root is not a readable directory, file
paths are sorted (Python sorts `Path`s; with a common prefix this is the
lexicographic order of the relative paths used here), and each maps to the
stripped first line of its reference file. -/
def getBranches (refsHeads : Option (List (String × String))) : List (String × String) :=
  match refsHeads with
  | none => []
  | some files =>
    (List.insertionSort (fun a b => strLe a.1 b.1 = true) files).map
      (fun e => (e.1, first_line e.2))

/-- Pipeline errors: loader errors, sorter errors, and the sorter fuel marker
of this embedding. -/
inductive RunError
  | load (e : LoadError)
  | sort (e : SortError)
  | sortFuelOut
deriving DecidableEq, Repr

/-- Decidable equality for run results (used to evaluate the pipeline on the
concrete test repositories). -/
instance exceptDecEq {e a : Type} [DecidableEq e] [DecidableEq a] :
    DecidableEq (Except e a)
  | .ok x, .ok y =>
    if h : x = y then .isTrue (by rw [h])
    else .isFalse (by intro hc; cases hc; exact h rfl)
  | .ok _, .error _ => .isFalse (by intro hc; cases hc)
  | .error _, .ok _ => .isFalse (by intro hc; cases hc)
  | .error x, .error y =>
    if h : x = y then .isTrue (by rw [h])
    else .isFalse (by intro hc; cases hc; exact h rfl)

/-- `topo_order_commits` up to (and including) the sort
(`src/topo_order_commits.py:197-231`): branch enumeration, graph loading,
topological sort.  Returns the final printed order (newest first), the final
graph, and the branch mapping. -/
def runCore (repo : RepoState) (enum : List String → List String) :
    Except RunError (List String × Graph × List (String × String)) :=
  let heads := getBranches repo.refsHeads
  match getGraphR repo.store heads with
  | .error e => .error (.load e)
  | .ok g =>
    match sortLoop enum (sortFuel g) g (initRoots g) [] with
    | none => .error .sortFuelOut
    | some (.error e) => .error (.sort e)
    | some (.ok (order, gF)) => .ok (order, gF, heads)

/-- The whole program `topo_order_commits` (`src/topo_order_commits.py:197-252`):
everything written to stdout, or the fatal error that terminated the run. -/
def topoOrderCommits (repo : RepoState) (enum : List String → List String) :
    Except RunError String :=
  match runCore repo enum with
  | .error e => .error e
  | .ok (order, gF, heads) => .ok (formatOutput enum heads gF order)

/-- The discontinuity block as the claim words it (for comparison with
`stickyBlock`): a newline, the space-joined parents, `=`, a newline, then `=`
immediately followed by the space-joined children of the following commit —
with no blank line in between. -/
def specStickyBlock (enum : List String → List String) (g : Graph)
    (order : List String) (h nxt : String) : String :=
  ("\n") ++ joinSpace (order.filter (fun oh => decide (h ∈ childrenOf g oh)))
    ++ ("=") ++ ("\n") ++ ("=") ++ joinSpace (enum (childrenOf g nxt))

/-- `formatChunk` with the claim's version of the block. -/
def specFormatChunk (enum : List String → List String) (heads : List (String × String))
    (g : Graph) (order : List String) (pr : String × Option String) : String :=
  pr.1 ++ branchTags heads pr.1 ++
    (match pr.2 with
     | none => ("")
     | some nxt =>
       if pr.1 ∈ childrenOf g nxt then ("") else specStickyBlock enum g order pr.1 nxt)
    ++ ("\n")

/-- The whole program output as predicted by the claim's block layout. -/
def specTopoOrderCommits (repo : RepoState) (enum : List String → List String) :
    Except RunError String :=
  match runCore repo enum with
  | .error e => .error e
  | .ok (order, gF, heads) =>
    .ok (String.join ((pairsWithNext order).map (specFormatChunk enum heads gF order)))

/-- Reachability by transitive parent traversal from the branch tips. -/
inductive Reachable (store : ObjectStore) (tips : List String) : String → Prop
  | tip (h : String) : h ∈ tips → Reachable store tips h
  | parent (c p : String) :
      Reachable store tips c → p ∈ declaredParents store c → Reachable store tips p

/-- A 40-character hash for test repositories. -/
def hashA : String := "aaaaaaaaaaaaaaaaaaaaaaaaaaaaaaaaaaaaaaaa"

/-- A 40-character hash for test repositories. -/
def hashB : String := "bbbbbbbbbbbbbbbbbbbbbbbbbbbbbbbbbbbbbbbb"

/-- A 40-character hash for test repositories. -/
def hashC : String := "cccccccccccccccccccccccccccccccccccccccc"

/-- ASCII bytes of a string (for building concrete object stores). -/
def asciiBytes (s : String) : List Nat := s.data.map (fun c => c.toNat)

/-- One stored object: the path derived from `h` mapping to the decompressed
bytes of `text`. -/
def objEntry (h : String) (text : String) : (List Char × List Char) × List Nat :=
  (objectPath h, asciiBytes text)

/-- Two branches `b1 → A`, `b2 → B`, both commits children of root `C`. -/
def twoBranchRepo : RepoState :=
  ⟨some [(("b1"), hashA), (("b2"), hashB)],
   [objEntry hashA (("parent ") ++ hashC),
    objEntry hashB (("parent ") ++ hashC),
    objEntry hashC ("")]⟩

/-- One branch `main → A`, `A`'s parent `B`, `B` a root: the linear-chain
example of the specification. -/
def chainRepo : RepoState :=
  ⟨some [(("main"), hashA)],
   [objEntry hashA (("parent ") ++ hashB),
    objEntry hashB ("")]⟩

/-- A commit object whose parent line uses a tab separator instead of a
single space. -/
def tabRepo : RepoState :=
  ⟨some [(("main"), hashA)],
   [objEntry hashA (("parent\t") ++ hashB),
    objEntry hashB ("")]⟩

/-- A branch pointing at a commit whose object file is absent. -/
def missingObjRepo : RepoState :=
  ⟨some [(("main"), hashA)], []⟩

/-- A repository whose `refs/heads` subtree is absent. -/
def noHeadsRepo : RepoState := ⟨none, []⟩

/-- Traversal work remaining: the parent lines of store entries not yet
claimed by a visited hash (used to bound the loader's fuel). -/
def budget (store : ObjectStore) (visited : List String) : Nat :=
  ((store.filter (fun e => decide (∀ v ∈ visited, objectPath v ≠ e.1))).map entryCost).sum

/-- Invariants of the loaded graph (established by `loadLoop` on success):
keys are unique and name their nodes, every node's parent set is exactly the
deduplicated declared-parent list of its own object, children sets are
duplicate-free and inverse to declared parents in both directions, every
branch tip has a node, and the graph's keys are exactly the identifiers
reachable from the tips. -/
structure GraphInv (store : ObjectStore) (tips : List String) (g : Graph) : Prop where
  keysNodup : (graphKeys g).Nodup
  hashEq : ∀ x n, lookupNode g x = some n → n.commit_hash = x
  opened : ∀ x n, lookupNode g x = some n → ∃ b, openObject store x = some b
  parentsDecl : ∀ x n, lookupNode g x = some n → n.parents = (declaredParents store x).dedup
  childrenNodup : ∀ x n, lookupNode g x = some n → n.children.Nodup
  childrenDecl : ∀ x n, lookupNode g x = some n → ∀ c ∈ n.children,
      (∃ cn, lookupNode g c = some cn) ∧ x ∈ declaredParents store c
  symmEdge : ∀ x n, lookupNode g x = some n → ∀ p ∈ declaredParents store x,
      ∃ pn, lookupNode g p = some pn ∧ x ∈ pn.children
  tipsNode : ∀ t ∈ tips, ∃ n, lookupNode g t = some n
  reachIff : ∀ x, (∃ n, lookupNode g x = some n) ↔ Reachable store tips x

/-- Loop invariant of `loadLoop`, relating the work list, the visited set and
the partially-built graph. -/
structure LoopInv (store : ObjectStore) (tips : List String)
    (tv visited : List String) (g : Graph) : Prop where
  keysNodup : (graphKeys g).Nodup
  hashEq : ∀ x n, lookupNode g x = some n → n.commit_hash = x
  visNodup : visited.Nodup
  visOpened : ∀ v ∈ visited, ∃ bs, openObject store v = some bs
  visNode : ∀ v ∈ visited, ∃ n, lookupNode g v = some n
  visParents : ∀ v ∈ visited, ∀ n, lookupNode g v = some n →
      n.parents = (declaredParents store v).dedup
  childrenNodup : ∀ x n, lookupNode g x = some n → n.children.Nodup
  childrenDecl : ∀ x n, lookupNode g x = some n → ∀ c ∈ n.children,
      (∃ cn, lookupNode g c = some cn) ∧ x ∈ declaredParents store c
  symmVis : ∀ v ∈ visited, ∀ p ∈ declaredParents store v,
      ∃ pn, lookupNode g p = some pn ∧ v ∈ pn.children
  keysCover : ∀ x n, lookupNode g x = some n → x ∈ visited ∨ x ∈ tv
  visClosed : ∀ v ∈ visited, ∀ p ∈ declaredParents store v, p ∈ visited ∨ p ∈ tv
  tipsCover : ∀ t ∈ tips, t ∈ visited ∨ t ∈ tv
  tvReach : ∀ x ∈ tv, Reachable store tips x
  visReach : ∀ v ∈ visited, Reachable store tips v

/-- Loop invariant of `sortLoop` relative to the loaded graph `gz`: keys,
hashes and children sets are untouched, a node's current parent set is its
original one minus the emitted commits, pending roots have all their original
parents emitted, and the emitted list is duplicate-free, closed under original
parents and respects the parent order. -/
structure SortInv (gz g : Graph) (roots acc : List String) : Prop where
  keys : graphKeys g = graphKeys gz
  look : ∀ x n, lookupNode g x = some n → ∃ nz, lookupNode gz x = some nz ∧
      n.commit_hash = nz.commit_hash ∧ n.children = nz.children ∧
      (∀ p, p ∈ n.parents ↔ p ∈ nz.parents ∧ p ∉ acc)
  rootsOK : ∀ r ∈ roots, ∃ nz, lookupNode gz r = some nz ∧ ∀ p ∈ nz.parents, p ∈ acc
  accNode : ∀ a ∈ acc, ∃ nz, lookupNode gz a = some nz
  nodupRA : (roots ++ acc).Nodup
  accClosed : ∀ a ∈ acc, ∀ nz, lookupNode gz a = some nz → ∀ p ∈ nz.parents, p ∈ acc
  accNoSelf : ∀ a ∈ acc, ∀ nz, lookupNode gz a = some nz → a ∉ nz.parents
  accPairwise : acc.Pairwise (fun x y => ∀ nz, lookupNode gz y = some nz → x ∉ nz.parents)

/-- Invariant threaded through `processChildren` while the children of the
just-emitted commit `hsh` are peeled: `cs` is the still-unprocessed tail of
the children enumeration, and the parent sets record the removal of `hsh`
from the already-processed children. -/
structure MidInv (gz : Graph) (hsh : String) (acc : List String)
    (cs : List String) (g : Graph) (roots : List String) : Prop where
  keys : graphKeys g = graphKeys gz
  look : ∀ x n, lookupNode g x = some n → ∃ nz, lookupNode gz x = some nz ∧
      n.commit_hash = nz.commit_hash ∧ n.children = nz.children ∧
      (∀ p, p ∈ n.parents ↔ p ∈ nz.parents ∧ p ∉ acc ∧ (p = hsh → x ∈ cs))
  csSub : ∀ c ∈ cs, ∃ nz, lookupNode gz hsh = some nz ∧ c ∈ nz.children
  csNodup : cs.Nodup
  rootsOK : ∀ r ∈ roots, ∃ nz, lookupNode gz r = some nz ∧ ∀ p ∈ nz.parents, p ∈ hsh :: acc
  rootsEmpty : ∀ r ∈ roots, ∀ nr, lookupNode g r = some nr → nr.parents = []
  nodupRA : (roots ++ hsh :: acc).Nodup

theorem add_child_commit_hash (n : CommitNode) (c : String) :
    (n.add_child c).commit_hash = n.commit_hash := by
  unfold CommitNode.add_child; split <;> rfl

theorem add_child_parents (n : CommitNode) (c : String) :
    (n.add_child c).parents = n.parents := by
  unfold CommitNode.add_child; split <;> rfl

theorem mem_add_child_children (n : CommitNode) (c x : String) :
    x ∈ (n.add_child c).children ↔ x ∈ n.children ∨ x = c := by
  unfold CommitNode.add_child
  split
  · constructor
    · exact fun hx => Or.inl hx
    · rintro (hx | rfl) <;> assumption
  · simp [or_comm]

theorem add_child_children_nodup (n : CommitNode) (c : String)
    (h : n.children.Nodup) : (n.add_child c).children.Nodup := by
  unfold CommitNode.add_child
  split
  · exact h
  · simpa [List.nodup_append] using ⟨h, by assumption⟩

theorem add_child_idem (n : CommitNode) (c : String) :
    ((n.add_child c).add_child c) = n.add_child c := by
  by_cases h : c ∈ n.children
  · simp [CommitNode.add_child, h]
  · simp [CommitNode.add_child, h]

theorem set_parents_commit_hash (n : CommitNode) (ps : List String) :
    (n.set_parents ps).commit_hash = n.commit_hash := rfl

theorem set_parents_children (n : CommitNode) (ps : List String) :
    (n.set_parents ps).children = n.children := rfl

theorem set_parents_parents (n : CommitNode) (ps : List String) :
    (n.set_parents ps).parents = ps.dedup := rfl

theorem rm_parent_commit_hash (n : CommitNode) (p : String) :
    (n.rm_parent p).commit_hash = n.commit_hash := rfl

theorem rm_parent_children (n : CommitNode) (p : String) :
    (n.rm_parent p).children = n.children := rfl

theorem mem_rm_parent_parents (n : CommitNode) (p x : String) :
    x ∈ (n.rm_parent p).parents ↔ x ∈ n.parents ∧ x ≠ p := by
  simp [CommitNode.rm_parent, List.mem_filter, bne_iff_ne]

theorem lookupNode_isSome_iff (g : Graph) (x : String) :
    (∃ n, lookupNode g x = some n) ↔ x ∈ graphKeys g := by
  induction g with
  | nil => simp [lookupNode, graphKeys]
  | cons e g ih =>
    by_cases hx : e.1 = x
    · subst hx; simp [lookupNode, graphKeys]
    · simp [lookupNode, hx, graphKeys, ih, Ne.symm hx]

theorem lookupNode_append_single (g : Graph) (h : String) (n : CommitNode) (x : String) :
    lookupNode (g ++ [(h, n)]) x =
      match lookupNode g x with
      | some m => some m
      | none => if h = x then some n else none := by
  induction g with
  | nil => simp [lookupNode]
  | cons e g ih =>
    by_cases hx : e.1 = x
    · simp [lookupNode, hx]
    · simp [lookupNode, hx, ih]

theorem lookupNode_insertNode (g : Graph) (h x : String) :
    lookupNode (insertNode g h) x =
      if x = h then some ((lookupNode g h).getD (CommitNode.mkNew h))
      else lookupNode g x := by
  unfold insertNode
  cases hg : lookupNode g h with
  | some m =>
    by_cases hx : x = h
    · subst hx; simp [hg]
    · simp [hx]
  | none =>
    rw [lookupNode_append_single]
    by_cases hx : x = h
    · subst hx; simp [hg]
    · cases hgx : lookupNode g x with
      | some m => simp [hgx, hx]
      | none => simp [hgx, hx, show ¬h = x from fun hh => hx hh.symm]

theorem lookupNode_updateNode (g : Graph) (h : String) (f : CommitNode → CommitNode) (x : String) :
    lookupNode (updateNode g h f) x =
      (lookupNode g x).map (fun n => if x = h then f n else n) := by
  induction g with
  | nil => simp [lookupNode, updateNode]
  | cons e g ih =>
    obtain ⟨k, v⟩ := e
    simp only [updateNode, List.map_cons] at ih ⊢
    by_cases hh : k = h
    · subst hh
      by_cases hx : k = x
      · subst hx
        simp [lookupNode]
      · simpa [lookupNode, hx] using ih
    · by_cases hx : k = x
      · subst hx
        simp [lookupNode, hh]
      · simpa [lookupNode, hx, hh] using ih

theorem graphKeys_updateNode (g : Graph) (h : String) (f : CommitNode → CommitNode) :
    graphKeys (updateNode g h f) = graphKeys g := by
  induction g with
  | nil => rfl
  | cons e g ih =>
    obtain ⟨k, v⟩ := e
    simp only [updateNode, List.map_cons, graphKeys] at ih ⊢
    by_cases hh : k = h
    · simpa [hh] using ih
    · simpa [hh] using ih

theorem graphKeys_insertNode (g : Graph) (h : String) :
    graphKeys (insertNode g h) =
      if (lookupNode g h).isSome then graphKeys g else graphKeys g ++ [h] := by
  unfold insertNode
  cases hg : lookupNode g h with
  | some m => simp
  | none => simp [graphKeys]

theorem lookupNode_of_mem_nodup (g : Graph) (e : String × CommitNode)
    (hn : (graphKeys g).Nodup) (he : e ∈ g) : lookupNode g e.1 = some e.2 := by
  induction g with
  | nil => cases he
  | cons e2 g ih =>
    rw [List.mem_cons] at he
    have hcons : (e2.1 :: graphKeys g).Nodup := by
      simpa only [graphKeys, List.map_cons] using hn
    have hn2 := List.nodup_cons.mp hcons
    rcases he with rfl | he
    · simp [lookupNode]
    · have hkey : e.1 ∈ graphKeys g := List.mem_map_of_mem (fun x => x.1) he
      have hne : e2.1 ≠ e.1 := fun hc => hn2.1 (hc ▸ hkey)
      simp [lookupNode, hne, ih hn2.2 he]

theorem visitParents_fst_mem (hsh : String) (vis ps : List String) :
    ∀ tv g x, x ∈ (visitParents hsh vis ps (tv, g)).1 ↔ x ∈ tv ∨ (x ∈ ps ∧ x ∉ vis) := by
  induction ps with
  | nil => intro tv g x; simp [visitParents]
  | cons p ps ih =>
    intro tv g x
    simp only [visitParents]
    rw [ih]
    by_cases hp : p ∈ vis
    · rw [if_pos hp]
      constructor
      · rintro (h | h)
        · exact Or.inl h
        · exact Or.inr ⟨List.mem_cons_of_mem _ h.1, h.2⟩
      · rintro (h | ⟨hmem, hnv⟩)
        · exact Or.inl h
        · rcases List.mem_cons.mp hmem with rfl | hmem
          · exact absurd hp hnv
          · exact Or.inr ⟨hmem, hnv⟩
    · rw [if_neg hp]
      constructor
      · rintro (h | h)
        · rcases List.mem_cons.mp h with rfl | h
          · exact Or.inr ⟨List.mem_cons_self _ _, hp⟩
          · exact Or.inl h
        · exact Or.inr ⟨List.mem_cons_of_mem _ h.1, h.2⟩
      · rintro (h | ⟨hmem, hnv⟩)
        · exact Or.inl (List.mem_cons_of_mem _ h)
        · rcases List.mem_cons.mp hmem with rfl | hmem
          · exact Or.inl (List.mem_cons_self _ _)
          · exact Or.inr ⟨hmem, hnv⟩

theorem visitParents_fst_length (hsh : String) (vis ps : List String) :
    ∀ tv g, (visitParents hsh vis ps (tv, g)).1.length ≤ ps.length + tv.length := by
  induction ps with
  | nil => intro tv g; simp [visitParents]
  | cons p ps ih =>
    intro tv g
    simp only [visitParents]
    refine le_trans (ih _ _) ?_
    by_cases hp : p ∈ vis
    · rw [if_pos hp]; simp only [List.length_cons]; omega
    · rw [if_neg hp]; simp only [List.length_cons]; omega

theorem visitParents_snd_lookup (hsh : String) (vis ps : List String) :
    ∀ tv g x, lookupNode (visitParents hsh vis ps (tv, g)).2 x =
      if x ∈ ps then some (((lookupNode g x).getD (CommitNode.mkNew x)).add_child hsh)
      else lookupNode g x := by
  induction ps with
  | nil => intro tv g x; simp [visitParents]
  | cons p ps ih =>
    intro tv g x
    simp only [visitParents]
    rw [ih]
    have hg2 : lookupNode (updateNode (insertNode g p) p (fun n => n.add_child hsh)) x
        = if x = p then some (((lookupNode g p).getD (CommitNode.mkNew p)).add_child hsh)
          else lookupNode g x := by
      rw [lookupNode_updateNode, lookupNode_insertNode]
      by_cases hx : x = p
      · subst hx; simp
      · simp [hx]
    by_cases hps : x ∈ ps
    · rw [if_pos hps, if_pos (List.mem_cons_of_mem _ hps), hg2]
      by_cases hx : x = p
      · subst hx; simp [add_child_idem]
      · simp [hx]
    · rw [if_neg hps, hg2]
      by_cases hx : x = p
      · subst hx
        simp
      · simp [hx, List.mem_cons, hps]

theorem visitParents_keysNodup (hsh : String) (vis ps : List String) :
    ∀ tv g, (graphKeys g).Nodup → (graphKeys (visitParents hsh vis ps (tv, g)).2).Nodup := by
  induction ps with
  | nil => intro tv g h; simpa [visitParents] using h
  | cons p ps ih =>
    intro tv g h
    simp only [visitParents]
    apply ih
    rw [graphKeys_updateNode, graphKeys_insertNode]
    split
    · exact h
    · have hp : p ∉ graphKeys g := by
        intro hmem
        have := (lookupNode_isSome_iff g p).mpr hmem
        rcases this with ⟨n, hn⟩
        simp [hn] at *
      simp [List.nodup_append, h, hp]

theorem declaredParents_of_open (store : ObjectStore) (h : String) (bs : List Nat)
    (ho : openObject store h = some bs) :
    declaredParents store h = findallParents (decodeIgnore bs) := by
  simp [declaredParents, ho]

theorem loopInv_step (store : ObjectStore) (tips : List String) (h : String)
    (rest visited : List String) (g : Graph)
    (inv : LoopInv store tips (h :: rest) visited g)
    (hv : h ∉ visited) (bs : List Nat) (ho : openObject store h = some bs) :
    LoopInv store tips
      (visitParents h visited (findallParents (decodeIgnore bs))
        (rest, updateNode (insertNode g h) h
          (fun n => n.set_parents (findallParents (decodeIgnore bs))))).1
      (h :: visited)
      (visitParents h visited (findallParents (decodeIgnore bs))
        (rest, updateNode (insertNode g h) h
          (fun n => n.set_parents (findallParents (decodeIgnore bs))))).2 := by
  set parents := findallParents (decodeIgnore bs) with hps
  set base := (lookupNode g h).getD (CommitNode.mkNew h) with hbase
  set g2 := updateNode (insertNode g h) h (fun n => n.set_parents parents) with hg2def
  set st := visitParents h visited parents (rest, g2) with hstdef
  have hdecl : declaredParents store h = parents := declaredParents_of_open store h bs ho
  have hmid : ∀ x, lookupNode g2 x =
      if x = h then some (base.set_parents parents) else lookupNode g x := by
    intro x
    rw [hg2def, lookupNode_updateNode, lookupNode_insertNode]
    by_cases hx : x = h
    · subst hx; simp [hbase]
    · simp [hx]
  have hL : ∀ x, lookupNode st.2 x =
      if x ∈ parents then
        some ((((if x = h then some (base.set_parents parents) else lookupNode g x)).getD
          (CommitNode.mkNew x)).add_child h)
      else if x = h then some (base.set_parents parents) else lookupNode g x := by
    intro x
    rw [hstdef]
    rw [show (visitParents h visited parents (rest, g2)).2 =
          (visitParents h visited parents (rest, g2)).2 from rfl]
    rw [visitParents_snd_lookup]
    by_cases hp : x ∈ parents
    · rw [if_pos hp, if_pos hp, hmid x]
    · rw [if_neg hp, if_neg hp, hmid x]
  have hT : ∀ x, x ∈ st.1 ↔ x ∈ rest ∨ (x ∈ parents ∧ x ∉ visited) := by
    intro x
    rw [hstdef]
    exact visitParents_fst_mem h visited parents rest g2 x
  have hbaseHash : base.commit_hash = h := by
    rw [hbase]
    cases hgh : lookupNode g h with
    | some m => simpa using inv.hashEq h m hgh
    | none => rfl
  have hbaseChildren : ∀ c ∈ base.children,
      (∃ cn, lookupNode g c = some cn) ∧ h ∈ declaredParents store c := by
    rw [hbase]
    cases hgh : lookupNode g h with
    | some m =>
      intro c hc
      exact inv.childrenDecl h m hgh c (by simpa using hc)
    | none =>
      intro c hc
      simp [CommitNode.mkNew] at hc
  have hbaseChildNodup : base.children.Nodup := by
    rw [hbase]
    cases hgh : lookupNode g h with
    | some m => simpa using inv.childrenNodup h m hgh
    | none => simp [CommitNode.mkNew]
  have hPres : ∀ y, (∃ m, lookupNode g y = some m) → ∃ m2, lookupNode st.2 y = some m2 := by
    rintro y ⟨m, hy⟩
    rw [hL y]
    by_cases hyp : y ∈ parents
    · rw [if_pos hyp]; exact ⟨_, rfl⟩
    · rw [if_neg hyp]
      by_cases hyh : y = h
      · rw [if_pos hyh]; exact ⟨_, rfl⟩
      · rw [if_neg hyh]; exact ⟨m, hy⟩
  have hHsome : ∃ m2, lookupNode st.2 h = some m2 := by
    rw [hL h]
    by_cases hhp : h ∈ parents
    · rw [if_pos hhp]; exact ⟨_, rfl⟩
    · rw [if_neg hhp, if_pos rfl]; exact ⟨_, rfl⟩
  refine
    { keysNodup := ?_
      hashEq := ?_
      visNodup := List.nodup_cons.mpr ⟨hv, inv.visNodup⟩
      visOpened := ?_
      visNode := ?_
      visParents := ?_
      childrenNodup := ?_
      childrenDecl := ?_
      symmVis := ?_
      keysCover := ?_
      visClosed := ?_
      tipsCover := ?_
      tvReach := ?_
      visReach := ?_ }
  · -- keysNodup
    rw [hstdef]
    apply visitParents_keysNodup
    rw [hg2def, graphKeys_updateNode, graphKeys_insertNode]
    split
    · exact inv.keysNodup
    · have hp : h ∉ graphKeys g := by
        intro hmem
        rcases (lookupNode_isSome_iff g h).mpr hmem with ⟨n, hn⟩
        simp [hn] at *
      simp [List.nodup_append, inv.keysNodup, hp]
  · -- hashEq
    intro x n hx
    rw [hL x] at hx
    by_cases hxp : x ∈ parents
    · rw [if_pos hxp] at hx
      have hn := (Option.some.inj hx).symm
      subst hn
      rw [add_child_commit_hash]
      by_cases hxh : x = h
      · rw [if_pos hxh]
        simp [set_parents_commit_hash, hbaseHash, hxh]
      · rw [if_neg hxh]
        cases hgx : lookupNode g x with
        | some m => simpa using inv.hashEq x m hgx
        | none => simp [CommitNode.mkNew]
    · rw [if_neg hxp] at hx
      by_cases hxh : x = h
      · rw [if_pos hxh] at hx
        have hn := (Option.some.inj hx).symm
        subst hn
        rw [set_parents_commit_hash, hbaseHash, hxh]
      · rw [if_neg hxh] at hx
        exact inv.hashEq x n hx
  · -- visOpened
    intro v hvv
    rcases List.mem_cons.mp hvv with rfl | hvv
    · exact ⟨bs, ho⟩
    · exact inv.visOpened v hvv
  · -- visNode
    intro v hvv
    rcases List.mem_cons.mp hvv with rfl | hvv
    · exact hHsome
    · exact hPres v (inv.visNode v hvv)
  · -- visParents
    intro v hvv n hx
    rcases List.mem_cons.mp hvv with rfl | hvv
    · rw [hL v] at hx
      rw [hdecl]
      by_cases hhp : v ∈ parents
      · rw [if_pos hhp, if_pos rfl] at hx
        have hn := (Option.some.inj hx).symm
        subst hn
        rw [add_child_parents]
        simp [set_parents_parents]
      · rw [if_neg hhp, if_pos rfl] at hx
        have hn := (Option.some.inj hx).symm
        subst hn
        simp [set_parents_parents]
    · have hvh : v ≠ h := fun hc => hv (hc ▸ hvv)
      rw [hL v, if_neg hvh] at hx
      by_cases hvp : v ∈ parents
      · rw [if_pos hvp] at hx
        have hn := (Option.some.inj hx).symm
        subst hn
        rcases inv.visNode v hvv with ⟨m, hm⟩
        rw [hm]
        rw [add_child_parents]
        simpa using inv.visParents v hvv m hm
      · rw [if_neg hvp] at hx
        exact inv.visParents v hvv n hx
  · -- childrenNodup
    intro x n hx
    rw [hL x] at hx
    by_cases hxp : x ∈ parents
    · rw [if_pos hxp] at hx
      have hn := (Option.some.inj hx).symm
      subst hn
      apply add_child_children_nodup
      by_cases hxh : x = h
      · rw [if_pos hxh]
        simpa [set_parents_children] using hbaseChildNodup
      · rw [if_neg hxh]
        cases hgx : lookupNode g x with
        | some m => simpa using inv.childrenNodup x m hgx
        | none => simp [CommitNode.mkNew]
    · rw [if_neg hxp] at hx
      by_cases hxh : x = h
      · rw [if_pos hxh] at hx
        have hn := (Option.some.inj hx).symm
        subst hn
        simpa [set_parents_children] using hbaseChildNodup
      · rw [if_neg hxh] at hx
        exact inv.childrenNodup x n hx
  · -- childrenDecl
    intro x n hx c hc
    rw [hL x] at hx
    by_cases hxp : x ∈ parents
    · rw [if_pos hxp] at hx
      have hn := (Option.some.inj hx).symm
      subst hn
      rw [mem_add_child_children] at hc
      rcases hc with hc | rfl
      · by_cases hxh : x = h
        · rw [if_pos hxh] at hc
          simp only [Option.getD_some, set_parents_children] at hc
          rcases hbaseChildren c hc with ⟨hex, hd⟩
          exact ⟨hPres c hex, hxh ▸ hd⟩
        · rw [if_neg hxh] at hc
          cases hgx : lookupNode g x with
          | some m =>
            rw [hgx] at hc
            rcases inv.childrenDecl x m hgx c (by simpa using hc) with ⟨hex, hd⟩
            exact ⟨hPres c hex, hd⟩
          | none =>
            rw [hgx] at hc
            simp [CommitNode.mkNew] at hc
      · exact ⟨hHsome, by rw [hdecl]; exact hxp⟩
    · rw [if_neg hxp] at hx
      by_cases hxh : x = h
      · rw [if_pos hxh] at hx
        have hn := (Option.some.inj hx).symm
        subst hn
        rw [set_parents_children] at hc
        rcases hbaseChildren c hc with ⟨hex, hd⟩
        exact ⟨hPres c hex, hxh ▸ hd⟩
      · rw [if_neg hxh] at hx
        rcases inv.childrenDecl x n hx c hc with ⟨hex, hd⟩
        exact ⟨hPres c hex, hd⟩
  · -- symmVis
    intro v hvv p hp
    rcases List.mem_cons.mp hvv with rfl | hvv
    · rw [hdecl] at hp
      have hx := hL p
      rw [if_pos hp] at hx
      exact ⟨_, hx, by rw [mem_add_child_children]; exact Or.inr rfl⟩
    · rcases inv.symmVis v hvv p hp with ⟨pn, hpn, hmem⟩
      have hchild : v ∈ ((if p = h then some (base.set_parents parents)
          else lookupNode g p).getD (CommitNode.mkNew p)).children := by
        by_cases hph : p = h
        · subst hph
          simpa [hbase, hpn, set_parents_children] using hmem
        · simpa [hph, hpn] using hmem
      rw [hL p]
      by_cases hpp : p ∈ parents
      · rw [if_pos hpp]
        refine ⟨_, rfl, ?_⟩
        rw [mem_add_child_children]
        exact Or.inl hchild
      · rw [if_neg hpp]
        by_cases hph : p = h
        · rw [if_pos hph]
          refine ⟨_, rfl, ?_⟩
          rw [if_pos hph] at hchild
          simpa using hchild
        · rw [if_neg hph]
          exact ⟨pn, hpn, hmem⟩
  · -- keysCover
    intro x n hx
    rw [hL x] at hx
    by_cases hxp : x ∈ parents
    · by_cases hxv : x ∈ visited
      · exact Or.inl (List.mem_cons_of_mem _ hxv)
      · exact Or.inr ((hT x).mpr (Or.inr ⟨hxp, hxv⟩))
    · rw [if_neg hxp] at hx
      by_cases hxh : x = h
      · exact Or.inl (by rw [hxh]; exact List.mem_cons_self _ _)
      · rw [if_neg hxh] at hx
        rcases inv.keysCover x n hx with hxv | hxt
        · exact Or.inl (List.mem_cons_of_mem _ hxv)
        · rcases List.mem_cons.mp hxt with rfl | hxt
          · exact absurd rfl hxh
          · exact Or.inr ((hT x).mpr (Or.inl hxt))
  · -- visClosed
    intro v hvv p hp
    rcases List.mem_cons.mp hvv with rfl | hvv
    · rw [hdecl] at hp
      by_cases hpv : p ∈ visited
      · exact Or.inl (List.mem_cons_of_mem _ hpv)
      · exact Or.inr ((hT p).mpr (Or.inr ⟨hp, hpv⟩))
    · rcases inv.visClosed v hvv p hp with hpv | hpt
      · exact Or.inl (List.mem_cons_of_mem _ hpv)
      · rcases List.mem_cons.mp hpt with rfl | hpt
        · exact Or.inl (List.mem_cons_self _ _)
        · exact Or.inr ((hT p).mpr (Or.inl hpt))
  · -- tipsCover
    intro t ht
    rcases inv.tipsCover t ht with htv | htt
    · exact Or.inl (List.mem_cons_of_mem _ htv)
    · rcases List.mem_cons.mp htt with rfl | htt
      · exact Or.inl (List.mem_cons_self _ _)
      · exact Or.inr ((hT t).mpr (Or.inl htt))
  · -- tvReach
    intro x hx
    rcases (hT x).mp hx with hx | ⟨hx, _⟩
    · exact inv.tvReach x (List.mem_cons_of_mem _ hx)
    · exact Reachable.parent h x (inv.tvReach h (List.mem_cons_self _ _)) (by rw [hdecl]; exact hx)
  · -- visReach
    intro v hvv
    rcases List.mem_cons.mp hvv with rfl | hvv
    · exact inv.tvReach v (List.mem_cons_self _ _)
    · exact inv.visReach v hvv

theorem loadLoop_exit (store : ObjectStore) (tips : List String)
    (visited : List String) (g : Graph) (inv : LoopInv store tips [] visited g) :
    ∀ fuel res logF, loadLoop store fuel [] visited g visited = some (res, logF) →
      res = .ok g ∧ logF = visited ∧ GraphInv store tips g ∧ visited.Nodup ∧
        visited.length = g.length := by
  have hmemiff : ∀ v, v ∈ visited ↔ v ∈ graphKeys g := by
    intro v
    constructor
    · intro hvv
      exact (lookupNode_isSome_iff g v).mp (inv.visNode v hvv)
    · intro hk
      rcases (lookupNode_isSome_iff g v).mpr hk with ⟨n, hn⟩
      rcases inv.keysCover v n hn with hvv | hvt
      · exact hvv
      · cases hvt
  have hperm : visited.Perm (graphKeys g) :=
    (List.perm_ext_iff_of_nodup inv.visNodup inv.keysNodup).mpr hmemiff
  have hlen : visited.length = g.length := by
    have := hperm.length_eq
    simpa [graphKeys] using this
  have hreachvis : ∀ x, Reachable store tips x → x ∈ visited := by
    intro x hx
    induction hx with
    | tip h hmem =>
      rcases inv.tipsCover h hmem with hvv | hvt
      · exact hvv
      · cases hvt
    | parent c p hc hp ihc =>
      rcases inv.visClosed c ihc p hp with hvv | hvt
      · exact hvv
      · cases hvt
  have hginv : GraphInv store tips g :=
    { keysNodup := inv.keysNodup
      hashEq := inv.hashEq
      opened := fun x n hx => by
        rcases inv.keysCover x n hx with hvv | hvt
        · exact inv.visOpened x hvv
        · cases hvt
      parentsDecl := fun x n hx => by
        rcases inv.keysCover x n hx with hvv | hvt
        · exact inv.visParents x hvv n hx
        · cases hvt
      childrenNodup := inv.childrenNodup
      childrenDecl := inv.childrenDecl
      symmEdge := fun x n hx p hp => by
        rcases inv.keysCover x n hx with hvv | hvt
        · exact inv.symmVis x hvv p hp
        · cases hvt
      tipsNode := fun t ht => by
        rcases inv.tipsCover t ht with hvv | hvt
        · exact inv.visNode t hvv
        · cases hvt
      reachIff := fun x => by
        constructor
        · rintro ⟨n, hn⟩
          rcases inv.keysCover x n hn with hvv | hvt
          · exact inv.visReach x hvv
          · cases hvt
        · intro hx
          exact inv.visNode x (hreachvis x hx) }
  intro fuel res logF hrun
  have hred : loadLoop store fuel [] visited g visited = some (.ok g, visited) := by
    cases fuel <;> simp [loadLoop, hlen]
  rw [hred] at hrun
  have h1 : res = .ok g := by
    have := congrArg Prod.fst (Option.some.inj hrun)
    exact this.symm
  have h2 : logF = visited := by
    have := congrArg Prod.snd (Option.some.inj hrun)
    exact this.symm
  exact ⟨h1, h2, hginv, inv.visNodup, hlen⟩

theorem loadLoop_sound (store : ObjectStore) (tips : List String) :
    ∀ fuel tv visited g, LoopInv store tips tv visited g →
    ∀ res logF, loadLoop store fuel tv visited g visited = some (res, logF) →
      (∃ gF, res = .ok gF ∧ GraphInv store tips gF ∧ logF.Nodup ∧
        logF.length = gF.length) ∨
      (∃ hm, res = .error (.fileNotFound hm) ∧ openObject store hm = none ∧
        logF.Nodup) := by
  intro fuel
  induction fuel with
  | zero =>
    intro tv visited g inv res logF hrun
    cases tv with
    | nil =>
      rcases loadLoop_exit store tips visited g inv 0 res logF hrun with
        ⟨h1, h2, h3, h4, h5⟩
      exact Or.inl ⟨g, h1, h3, h2 ▸ h4, by rw [h2, h5]⟩
    | cons h rest => simp [loadLoop] at hrun
  | succ fuel ih =>
    intro tv visited g inv res logF hrun
    cases tv with
    | nil =>
      rcases loadLoop_exit store tips visited g inv (fuel + 1) res logF hrun with
        ⟨h1, h2, h3, h4, h5⟩
      exact Or.inl ⟨g, h1, h3, h2 ▸ h4, by rw [h2, h5]⟩
    | cons h rest =>
      by_cases hv : h ∈ visited
      · have hred : loadLoop store (fuel + 1) (h :: rest) visited g visited
            = loadLoop store fuel rest visited g visited := by
          simp [loadLoop, hv]
        rw [hred] at hrun
        refine ih rest visited g ?_ res logF hrun
        exact
          { keysNodup := inv.keysNodup
            hashEq := inv.hashEq
            visNodup := inv.visNodup
            visOpened := inv.visOpened
            visNode := inv.visNode
            visParents := inv.visParents
            childrenNodup := inv.childrenNodup
            childrenDecl := inv.childrenDecl
            symmVis := inv.symmVis
            keysCover := fun x n hx => by
              rcases inv.keysCover x n hx with hvv | hvt
              · exact Or.inl hvv
              · rcases List.mem_cons.mp hvt with rfl | hvt
                · exact Or.inl hv
                · exact Or.inr hvt
            visClosed := fun v hvv p hp => by
              rcases inv.visClosed v hvv p hp with hpv | hpt
              · exact Or.inl hpv
              · rcases List.mem_cons.mp hpt with rfl | hpt
                · exact Or.inl hv
                · exact Or.inr hpt
            tipsCover := fun t ht => by
              rcases inv.tipsCover t ht with htv | htt
              · exact Or.inl htv
              · rcases List.mem_cons.mp htt with rfl | htt
                · exact Or.inl hv
                · exact Or.inr htt
            tvReach := fun x hx => inv.tvReach x (List.mem_cons_of_mem _ hx)
            visReach := inv.visReach }
      · cases ho : openObject store h with
        | none =>
          have hred : loadLoop store (fuel + 1) (h :: rest) visited g visited
              = some (.error (.fileNotFound h), visited) := by
            simp [loadLoop, hv, ho]
          rw [hred] at hrun
          have h1 : res = .error (.fileNotFound h) := by
            have := congrArg Prod.fst (Option.some.inj hrun)
            exact this.symm
          have h2 : logF = visited := by
            have := congrArg Prod.snd (Option.some.inj hrun)
            exact this.symm
          exact Or.inr ⟨h, h1, ho, h2 ▸ inv.visNodup⟩
        | some bs =>
          have hred : loadLoop store (fuel + 1) (h :: rest) visited g visited
              = loadLoop store fuel
                  (visitParents h visited (findallParents (decodeIgnore bs))
                    (rest, updateNode (insertNode g h) h
                      (fun n => n.set_parents (findallParents (decodeIgnore bs))))).1
                  (h :: visited)
                  (visitParents h visited (findallParents (decodeIgnore bs))
                    (rest, updateNode (insertNode g h) h
                      (fun n => n.set_parents (findallParents (decodeIgnore bs))))).2
                  (h :: visited) := by
            simp [loadLoop, hv, ho]
          rw [hred] at hrun
          exact ih _ _ _ (loopInv_step store tips h rest visited g inv hv bs ho) res logF hrun

theorem objectPath_inj (a b : String) (h : objectPath a = objectPath b) : a = b := by
  have h1 : a.data.take 2 = b.data.take 2 := congrArg Prod.fst h
  have h2 : a.data.drop 2 = b.data.drop 2 := congrArg Prod.snd h
  have hdata : a.data = b.data := by
    rw [← List.take_append_drop 2 a.data, ← List.take_append_drop 2 b.data, h1, h2]
  cases a
  cases b
  exact congrArg String.mk hdata

theorem budget_mono (store : ObjectStore) (h : String) (vis : List String) :
    budget store (h :: vis) ≤ budget store vis := by
  induction store with
  | nil => exact le_refl _
  | cons e rest ih =>
    unfold budget at *
    rw [List.filter_cons, List.filter_cons]
    by_cases hnew : ∀ v ∈ h :: vis, objectPath v ≠ e.1
    · have hold : ∀ v ∈ vis, objectPath v ≠ e.1 :=
        fun v hv => hnew v (List.mem_cons_of_mem _ hv)
      rw [if_pos (by simpa using hnew), if_pos (by simpa using hold)]
      simp only [List.map_cons, List.sum_cons]
      omega
    · by_cases hold : ∀ v ∈ vis, objectPath v ≠ e.1
      · rw [if_neg (by simpa using hnew), if_pos (by simpa using hold)]
        simp only [List.map_cons, List.sum_cons]
        omega
      · rw [if_neg (by simpa using hnew), if_neg (by simpa using hold)]
        exact ih

theorem budget_visit (store : ObjectStore) (vis : List String) (h : String) (bs : List Nat)
    (hnv : h ∉ vis) (ho : lookupStore store (objectPath h) = some bs) :
    budget store (h :: vis) + (findallParents (decodeIgnore bs)).length ≤ budget store vis := by
  induction store with
  | nil => simp [lookupStore] at ho
  | cons e rest ih =>
    by_cases hkey : e.1 = objectPath h
    · have hbs : e.2 = bs := by
        have : lookupStore (e :: rest) (objectPath h) = some e.2 := by
          simp [lookupStore, hkey]
        rw [this] at ho
        exact Option.some.inj ho
      have hold : ∀ v ∈ vis, objectPath v ≠ e.1 := by
        intro v hv hc
        have hveq : v = h := objectPath_inj v h (by rw [hc, hkey])
        exact hnv (hveq ▸ hv)
      have hnew : ¬ ∀ v ∈ h :: vis, objectPath v ≠ e.1 := by
        intro hall
        exact hall h (List.mem_cons_self _ _) (by rw [hkey])
      unfold budget
      rw [List.filter_cons, List.filter_cons]
      rw [if_neg (by simpa using hnew), if_pos (by simpa using hold)]
      simp only [List.map_cons, List.sum_cons]
      have hmono : budget rest (h :: vis) ≤ budget rest vis := budget_mono rest h vis
      unfold budget at hmono
      have hcost : entryCost e = (findallParents (decodeIgnore bs)).length := by
        unfold entryCost
        rw [hbs]
      omega
    · have ho' : lookupStore rest (objectPath h) = some bs := by
        have : lookupStore (e :: rest) (objectPath h) = lookupStore rest (objectPath h) := by
          simp [lookupStore, hkey]
        rw [← this]
        exact ho
      have hiff : (∀ v ∈ h :: vis, objectPath v ≠ e.1) ↔ (∀ v ∈ vis, objectPath v ≠ e.1) := by
        constructor
        · exact fun hall v hv => hall v (List.mem_cons_of_mem _ hv)
        · intro hall v hv
          rcases List.mem_cons.mp hv with rfl | hv
          · exact fun hc => hkey hc.symm
          · exact hall v hv
      unfold budget
      rw [List.filter_cons, List.filter_cons]
      by_cases hold : ∀ v ∈ vis, objectPath v ≠ e.1
      · have hnew : ∀ v ∈ h :: vis, objectPath v ≠ e.1 := hiff.mpr hold
        rw [if_pos (by simpa using hnew), if_pos (by simpa using hold)]
        simp only [List.map_cons, List.sum_cons]
        have := ih ho'
        unfold budget at this
        omega
      · have hnew : ¬ ∀ v ∈ h :: vis, objectPath v ≠ e.1 := fun hc => hold (hiff.mp hc)
        rw [if_neg (by simpa using hnew), if_neg (by simpa using hold)]
        exact ih ho'

theorem budget_nil (store : ObjectStore) : budget store [] = (store.map entryCost).sum := by
  unfold budget
  congr 1
  congr 1
  rw [List.filter_eq_self]
  intro e _
  simp

theorem loadLoop_isSome (store : ObjectStore) :
    ∀ fuel tv visited g decoded,
      (∀ v ∈ visited, ∃ b, openObject store v = some b) →
      tv.length + budget store visited ≤ fuel →
      (loadLoop store fuel tv visited g decoded).isSome := by
  intro fuel
  induction fuel with
  | zero =>
    intro tv visited g decoded hop hle
    cases tv with
    | nil =>
      simp only [loadLoop]
      split_ifs <;> simp
    | cons h rest =>
      exfalso
      simp only [List.length_cons] at hle
      omega
  | succ fuel ih =>
    intro tv visited g decoded hop hle
    cases tv with
    | nil =>
      simp only [loadLoop]
      split_ifs <;> simp
    | cons h rest =>
      by_cases hv : h ∈ visited
      · have hred : loadLoop store (fuel + 1) (h :: rest) visited g decoded
            = loadLoop store fuel rest visited g decoded := by
          simp [loadLoop, hv]
        rw [hred]
        apply ih rest visited g decoded hop
        simp only [List.length_cons] at hle
        omega
      · cases ho : openObject store h with
        | none => simp [loadLoop, hv, ho]
        | some bs =>
          have hred : loadLoop store (fuel + 1) (h :: rest) visited g decoded
              = loadLoop store fuel
                  (visitParents h visited (findallParents (decodeIgnore bs))
                    (rest, updateNode (insertNode g h) h
                      (fun n => n.set_parents (findallParents (decodeIgnore bs))))).1
                  (h :: visited)
                  (visitParents h visited (findallParents (decodeIgnore bs))
                    (rest, updateNode (insertNode g h) h
                      (fun n => n.set_parents (findallParents (decodeIgnore bs))))).2
                  (h :: decoded) := by
            simp [loadLoop, hv, ho]
          rw [hred]
          apply ih
          · intro v hvv
            rcases List.mem_cons.mp hvv with rfl | hvv
            · exact ⟨bs, ho⟩
            · exact hop v hvv
          · have hlen := visitParents_fst_length h visited
              (findallParents (decodeIgnore bs)) rest
              (updateNode (insertNode g h) h
                (fun n => n.set_parents (findallParents (decodeIgnore bs))))
            have hbv := budget_visit store visited h bs hv ho
            simp only [List.length_cons] at hle
            omega

theorem loopInv_init (store : ObjectStore) (heads : List (String × String)) :
    LoopInv store (heads.map (fun e => e.2)) (initVisit heads) [] [] :=
  { keysNodup := by simp [graphKeys]
    hashEq := fun x n hx => by simp [lookupNode] at hx
    visNodup := List.nodup_nil
    visOpened := fun v hv => absurd hv (List.not_mem_nil v)
    visNode := fun v hv => absurd hv (List.not_mem_nil v)
    visParents := fun v hv => absurd hv (List.not_mem_nil v)
    childrenNodup := fun x n hx => by simp [lookupNode] at hx
    childrenDecl := fun x n hx => by simp [lookupNode] at hx
    symmVis := fun v hv => absurd hv (List.not_mem_nil v)
    keysCover := fun x n hx => by simp [lookupNode] at hx
    visClosed := fun v hv => absurd hv (List.not_mem_nil v)
    tipsCover := fun t ht => Or.inr (by simpa [initVisit] using ht)
    tvReach := fun x hx => Reachable.tip x (by simpa [initVisit] using hx)
    visReach := fun v hv => absurd hv (List.not_mem_nil v) }

theorem getGraphR_ok (store : ObjectStore) (heads : List (String × String)) (g : Graph)
    (hok : getGraphR store heads = .ok g) :
    GraphInv store (heads.map (fun e => e.2)) g ∧
    ∃ logF, loadLoop store (fuelBound store heads) (initVisit heads) [] [] [] =
      some (.ok g, logF) ∧ logF.Nodup ∧ logF.length = g.length := by
  have hsome := loadLoop_isSome store (fuelBound store heads) (initVisit heads) [] [] []
    (fun v hv => absurd hv (List.not_mem_nil v))
    (by rw [budget_nil]; simp [fuelBound])
  rcases Option.isSome_iff_exists.mp hsome with ⟨r, hr⟩
  rcases r with ⟨res, logF⟩
  have hsound := loadLoop_sound store (heads.map (fun e => e.2)) (fuelBound store heads)
    (initVisit heads) [] [] (loopInv_init store heads) res logF hr
  unfold getGraphR at hok
  rw [hr] at hok
  simp only at hok
  rcases hsound with ⟨gF, hres, hinv, hnodup, hlen⟩ | ⟨hm, hres, _, _⟩
  · rw [hres] at hok
    have hgF : gF = g := Except.ok.inj hok
    subst hgF
    exact ⟨hinv, logF, by rw [hr, hres], hnodup, hlen⟩
  · rw [hres] at hok
    cases hok

theorem getGraphR_missing (store : ObjectStore) (heads : List (String × String))
    (hmiss : ∃ t ∈ heads.map (fun e => e.2), openObject store t = none) :
    ∃ hm, openObject store hm = none ∧
      getGraphR store heads = .error (.fileNotFound hm) := by
  obtain ⟨t, ht, hto⟩ := hmiss
  have hsome := loadLoop_isSome store (fuelBound store heads) (initVisit heads) [] [] []
    (fun v hv => absurd hv (List.not_mem_nil v))
    (by rw [budget_nil]; simp [fuelBound])
  rcases Option.isSome_iff_exists.mp hsome with ⟨r, hr⟩
  rcases r with ⟨res, logF⟩
  have hsound := loadLoop_sound store (heads.map (fun e => e.2)) (fuelBound store heads)
    (initVisit heads) [] [] (loopInv_init store heads) res logF hr
  rcases hsound with ⟨gF, hres, hinv, _, _⟩ | ⟨hm, hres, hmo, _⟩
  · exfalso
    rcases hinv.tipsNode t ht with ⟨n, hn⟩
    rcases hinv.opened t n hn with ⟨b, hb⟩
    rw [hto] at hb
    cases hb
  · refine ⟨hm, hmo, ?_⟩
    unfold getGraphR
    rw [hr, hres]

theorem processChildren_sound (store : ObjectStore) (tips : List String) (gz : Graph)
    (hginv : GraphInv store tips gz) (hsh : String) (acc : List String)
    (hna : hsh ∉ acc)
    (haccClosed : ∀ a ∈ acc, ∀ nz, lookupNode gz a = some nz → ∀ p ∈ nz.parents, p ∈ acc)
    (hparz : ∀ nz, lookupNode gz hsh = some nz → ∀ p ∈ nz.parents, p ∈ acc) :
    ∀ cs g roots, MidInv gz hsh acc cs g roots →
      ∀ g2 roots2, processChildren hsh cs g roots = .ok (g2, roots2) →
        MidInv gz hsh acc [] g2 roots2 := by
  intro cs
  induction cs with
  | nil =>
    intro g roots hmid g2 roots2 hp
    simp only [processChildren] at hp
    have h1 : g = g2 := congrArg Prod.fst (Except.ok.inj hp)
    have h2 : roots = roots2 := congrArg Prod.snd (Except.ok.inj hp)
    rw [← h1, ← h2]
    exact hmid
  | cons c cs ih =>
    intro g roots hmid g2 roots2 hp
    cases hlook : lookupNode g c with
    | none => simp [processChildren, hlook] at hp
    | some n =>
      have hstep : processChildren hsh (c :: cs) g roots
          = processChildren hsh cs (updateNode g c (fun m => m.rm_parent hsh))
              (if (n.rm_parent hsh).parents.isEmpty then c :: roots else roots) := by
        simp [processChildren, hlook]
      rw [hstep] at hp
      have hccs : c ∉ cs := (List.nodup_cons.mp hmid.csNodup).1
      rcases hmid.csSub c (List.mem_cons_self _ _) with ⟨nzh, hnzh, hcchild⟩
      rcases hginv.childrenDecl hsh nzh hnzh c hcchild with ⟨⟨cnz, hcnz⟩, hdeclc⟩
      have hpc : hsh ∈ cnz.parents := by
        rw [hginv.parentsDecl c cnz hcnz]
        exact List.mem_dedup.mpr hdeclc
      rcases hmid.look c n hlook with ⟨cnz2, hcnz2, hchash, hcchildren, hciff⟩
      have hcnzeq : cnz2 = cnz := by
        rw [hcnz] at hcnz2
        exact (Option.some.inj hcnz2).symm
      subst hcnzeq
      have hcur : hsh ∈ n.parents :=
        (hciff hsh).mpr ⟨hpc, hna, fun _ => List.mem_cons_self _ _⟩
      have hcroots : c ∉ roots := by
        intro hcr
        have := hmid.rootsEmpty c hcr n hlook
        rw [this] at hcur
        cases hcur
      have hchsh : c ≠ hsh := by
        intro hc
        subst hc
        exact hna (hparz cnz2 hcnz c hpc)
      have hcacc : c ∉ acc := by
        intro hc
        exact hna (haccClosed c hc cnz2 hcnz hsh hpc)
      have hlook2 : ∀ x, lookupNode (updateNode g c (fun m => m.rm_parent hsh)) x
          = if x = c then some (n.rm_parent hsh) else lookupNode g x := by
        intro x
        rw [lookupNode_updateNode]
        by_cases hx : x = c
        · subst hx
          rw [hlook]
          simp
        · cases hgx : lookupNode g x with
          | none => simp [hx]
          | some m => simp [hx]
      refine ih (updateNode g c (fun m => m.rm_parent hsh))
        (if (n.rm_parent hsh).parents.isEmpty then c :: roots else roots) ?_ g2 roots2 hp
      refine
        { keys := by rw [graphKeys_updateNode]; exact hmid.keys
          look := ?_
          csSub := fun d hd => hmid.csSub d (List.mem_cons_of_mem _ hd)
          csNodup := (List.nodup_cons.mp hmid.csNodup).2
          rootsOK := ?_
          rootsEmpty := ?_
          nodupRA := ?_ }
      · -- look
        intro x m hm
        rw [hlook2 x] at hm
        by_cases hx : x = c
        · subst hx
          rw [if_pos rfl] at hm
          have hmeq : m = n.rm_parent hsh := (Option.some.inj hm).symm
          subst hmeq
          refine ⟨cnz2, hcnz, ?_, ?_, ?_⟩
          · rw [rm_parent_commit_hash]; exact hchash
          · rw [rm_parent_children]; exact hcchildren
          · intro p
            rw [mem_rm_parent_parents]
            constructor
            · rintro ⟨hp1, hp2⟩
              rcases (hciff p).mp hp1 with ⟨ha, hb, _⟩
              exact ⟨ha, hb, fun hc => absurd hc hp2⟩
            · rintro ⟨ha, hb, hc⟩
              by_cases hph : p = hsh
              · exact absurd (hc hph) hccs
              · exact ⟨(hciff p).mpr ⟨ha, hb, fun hc2 => absurd hc2 hph⟩, hph⟩
        · rw [if_neg hx] at hm
          rcases hmid.look x m hm with ⟨nz, hnz, hh1, hh2, hiff⟩
          refine ⟨nz, hnz, hh1, hh2, ?_⟩
          intro p
          rw [hiff p]
          constructor
          · rintro ⟨ha, hb, hc⟩
            refine ⟨ha, hb, fun hph => ?_⟩
            rcases List.mem_cons.mp (hc hph) with hcc | hcc
            · exact absurd hcc hx
            · exact hcc
          · rintro ⟨ha, hb, hc⟩
            exact ⟨ha, hb, fun hph => List.mem_cons_of_mem _ (hc hph)⟩
      · -- rootsOK
        intro r hr
        by_cases hemp : (n.rm_parent hsh).parents.isEmpty
        · rw [if_pos hemp] at hr
          have hempl : (n.rm_parent hsh).parents = [] := by
            simpa using hemp
          rcases List.mem_cons.mp hr with rfl | hr
          · refine ⟨cnz2, hcnz, ?_⟩
            intro p hpz
            by_cases hph : p = hsh
            · rw [hph]; exact List.mem_cons_self _ _
            · by_cases hpa : p ∈ acc
              · exact List.mem_cons_of_mem _ hpa
              · exfalso
                have hpn : p ∈ n.parents :=
                  (hciff p).mpr ⟨hpz, hpa, fun hc => absurd hc hph⟩
                have hpn2 : p ∈ (n.rm_parent hsh).parents :=
                  (mem_rm_parent_parents n hsh p).mpr ⟨hpn, hph⟩
                rw [hempl] at hpn2
                cases hpn2
          · exact hmid.rootsOK r hr
        · rw [if_neg hemp] at hr
          exact hmid.rootsOK r hr
      · -- rootsEmpty
        intro r hr nr hnr
        rw [hlook2 r] at hnr
        by_cases hx : r = c
        · subst hx
          rw [if_pos rfl] at hnr
          have hmeq : nr = n.rm_parent hsh := (Option.some.inj hnr).symm
          subst hmeq
          by_cases hemp : (n.rm_parent hsh).parents.isEmpty
          · simpa using hemp
          · rw [if_neg hemp] at hr
            exact absurd hr hcroots
        · rw [if_neg hx] at hnr
          by_cases hemp : (n.rm_parent hsh).parents.isEmpty
          · rw [if_pos hemp] at hr
            rcases List.mem_cons.mp hr with rfl | hr
            · exact absurd rfl hx
            · exact hmid.rootsEmpty r hr nr hnr
          · rw [if_neg hemp] at hr
            exact hmid.rootsEmpty r hr nr hnr
      · -- nodupRA
        by_cases hemp : (n.rm_parent hsh).parents.isEmpty
        · rw [if_pos hemp, List.cons_append, List.nodup_cons]
          refine ⟨?_, hmid.nodupRA⟩
          intro hc
          rcases List.mem_append.mp hc with hc | hc
          · exact hcroots hc
          · rcases List.mem_cons.mp hc with hc | hc
            · exact hchsh hc
            · exact hcacc hc
        · rw [if_neg hemp]
          exact hmid.nodupRA

theorem sortLoop_exit (gz g : Graph) (acc : List String)
    (inv : SortInv gz g [] acc) (hlen : acc.length = g.length) :
    acc.Nodup ∧ (∀ x, x ∈ acc ↔ ∃ n, lookupNode gz x = some n) := by
  have hnd : acc.Nodup := by
    have := inv.nodupRA
    simpa using this
  have hsub : acc ⊆ graphKeys gz := by
    intro a ha
    exact (lookupNode_isSome_iff gz a).mp (inv.accNode a ha)
  have hglen : (graphKeys gz).length ≤ acc.length := by
    have h1 : (graphKeys gz).length = (graphKeys g).length := by rw [inv.keys]
    have h2 : (graphKeys g).length = g.length := by simp [graphKeys]
    omega
  have hperm : acc.Perm (graphKeys gz) :=
    (hnd.subperm hsub).perm_of_length_le hglen
  refine ⟨hnd, fun x => ?_⟩
  rw [lookupNode_isSome_iff]
  exact hperm.mem_iff

theorem sortLoop_sound (store : ObjectStore) (tips : List String) (gz : Graph)
    (hginv : GraphInv store tips gz) (enum : List String → List String)
    (henum : ∀ l : List String, (enum l).Perm l) :
    ∀ fuel g roots acc, SortInv gz g roots acc →
      ∀ accF gF, sortLoop enum fuel g roots acc = some (.ok (accF, gF)) →
        accF.Nodup ∧ (∀ x, x ∈ accF ↔ ∃ n, lookupNode gz x = some n) ∧
        accF.Pairwise (fun x y => ∀ nz, lookupNode gz y = some nz → x ∉ nz.parents) ∧
        (∀ a ∈ accF, ∀ nz, lookupNode gz a = some nz → a ∉ nz.parents) ∧
        (∀ x m, lookupNode gF x = some m → ∃ nz, lookupNode gz x = some nz ∧
          m.children = nz.children ∧ m.commit_hash = nz.commit_hash) := by
  intro fuel
  induction fuel with
  | zero =>
    intro g roots acc inv accF gF hrun
    cases roots with
    | cons h rest => simp [sortLoop] at hrun
    | nil =>
      by_cases hlen : acc.length = g.length
      · have hred : sortLoop enum 0 g [] acc = some (.ok (acc, g)) := by
          simp [sortLoop, hlen]
        rw [hred] at hrun
        have hpair := Except.ok.inj (Option.some.inj hrun)
        have ha : acc = accF := congrArg Prod.fst hpair
        have hg : g = gF := congrArg Prod.snd hpair
        subst ha; subst hg
        rcases sortLoop_exit gz g acc inv hlen with ⟨hnd, hmem⟩
        refine ⟨hnd, hmem, inv.accPairwise, inv.accNoSelf, ?_⟩
        intro x m hm
        rcases inv.look x m hm with ⟨nz, hnz, h1, h2, _⟩
        exact ⟨nz, hnz, h2, h1⟩
      · have hred : sortLoop enum 0 g [] acc = some (.error .sortNotBijection) := by
          simp [sortLoop, hlen]
        rw [hred] at hrun
        cases Option.some.inj hrun
  | succ fuel ih =>
    intro g roots acc inv accF gF hrun
    cases roots with
    | nil =>
      by_cases hlen : acc.length = g.length
      · have hred : sortLoop enum (fuel + 1) g [] acc = some (.ok (acc, g)) := by
          simp [sortLoop, hlen]
        rw [hred] at hrun
        have hpair := Except.ok.inj (Option.some.inj hrun)
        have ha : acc = accF := congrArg Prod.fst hpair
        have hg : g = gF := congrArg Prod.snd hpair
        subst ha; subst hg
        rcases sortLoop_exit gz g acc inv hlen with ⟨hnd, hmem⟩
        refine ⟨hnd, hmem, inv.accPairwise, inv.accNoSelf, ?_⟩
        intro x m hm
        rcases inv.look x m hm with ⟨nz, hnz, h1, h2, _⟩
        exact ⟨nz, hnz, h2, h1⟩
      · have hred : sortLoop enum (fuel + 1) g [] acc = some (.error .sortNotBijection) := by
          simp [sortLoop, hlen]
        rw [hred] at hrun
        cases Option.some.inj hrun
    | cons h rest =>
      cases hlookup : lookupNode g h with
      | none =>
        have hred : sortLoop enum (fuel + 1) g (h :: rest) acc
            = some (.error (.keyError h)) := by
          simp [sortLoop, hlookup]
        rw [hred] at hrun
        cases Option.some.inj hrun
      | some n =>
        rcases inv.look h n hlookup with ⟨nz, hnz, hhash, hchildren, hiff⟩
        have hncm : n.commit_hash = h := by
          rw [hhash]
          exact hginv.hashEq h nz hnz
        have hna : h ∉ acc := by
          have hh := inv.nodupRA
          rw [List.cons_append, List.nodup_cons] at hh
          exact fun hc => hh.1 (List.mem_append.mpr (Or.inr hc))
        have hparz : ∀ nz0, lookupNode gz h = some nz0 → ∀ p ∈ nz0.parents, p ∈ acc := by
          intro nz0 hnz0
          rcases inv.rootsOK h (List.mem_cons_self _ _) with ⟨nz1, hnz1, hsub⟩
          have : nz0 = nz1 := by
            rw [hnz1] at hnz0
            exact (Option.some.inj hnz0).symm
          subst this
          exact hsub
        cases hproc : processChildren n.commit_hash (enum n.children) g rest with
        | error e =>
          have hred : sortLoop enum (fuel + 1) g (h :: rest) acc
              = some (.error e) := by
            simp [sortLoop, hlookup, hproc]
          rw [hred] at hrun
          cases Option.some.inj hrun
        | ok pr =>
          rcases pr with ⟨g2, roots2⟩
          have hred : sortLoop enum (fuel + 1) g (h :: rest) acc
              = sortLoop enum fuel g2 roots2 (n.commit_hash :: acc) := by
            simp [sortLoop, hlookup, hproc]
          rw [hred, hncm] at hrun
          rw [hncm] at hproc
          have hmid0 : MidInv gz h acc (enum n.children) g rest :=
            { keys := inv.keys
              look := by
                intro x m hm
                rcases inv.look x m hm with ⟨nz2, hnz2, hx1, hx2, hiff2⟩
                refine ⟨nz2, hnz2, hx1, hx2, ?_⟩
                intro p
                rw [hiff2 p]
                constructor
                · rintro ⟨ha, hb⟩
                  refine ⟨ha, hb, ?_⟩
                  rintro rfl
                  have hdx : p ∈ declaredParents store x := by
                    have := hginv.parentsDecl x nz2 hnz2
                    rw [this] at ha
                    exact List.mem_dedup.mp ha
                  rcases hginv.symmEdge x nz2 hnz2 p hdx with ⟨pn, hpn, hxchild⟩
                  have hpneq : pn = nz := by
                    rw [hnz] at hpn
                    exact (Option.some.inj hpn).symm
                  subst hpneq
                  rw [← hchildren] at hxchild
                  exact ((henum n.children).mem_iff).mpr hxchild
                · rintro ⟨ha, hb, _⟩
                  exact ⟨ha, hb⟩
              csSub := by
                intro c hc
                refine ⟨nz, hnz, ?_⟩
                rw [← hchildren]
                exact ((henum n.children).mem_iff).mp hc
              csNodup := by
                refine ((henum n.children).nodup_iff).mpr ?_
                rw [hchildren]
                exact hginv.childrenNodup h nz hnz
              rootsOK := by
                intro r hr
                rcases inv.rootsOK r (List.mem_cons_of_mem _ hr) with ⟨nz2, hnz2, hsub⟩
                exact ⟨nz2, hnz2, fun p hp => List.mem_cons_of_mem _ (hsub p hp)⟩
              rootsEmpty := by
                intro r hr nr hnr
                rcases inv.look r nr hnr with ⟨nz2, hnz2, _, _, hiff2⟩
                rcases inv.rootsOK r (List.mem_cons_of_mem _ hr) with ⟨nz3, hnz3, hsub⟩
                have : nz3 = nz2 := by
                  rw [hnz2] at hnz3
                  exact (Option.some.inj hnz3).symm
                subst this
                rw [List.eq_nil_iff_forall_not_mem]
                intro p hp
                rcases (hiff2 p).mp hp with ⟨ha, hb⟩
                exact hb (hsub p ha)
              nodupRA := by
                have hh := inv.nodupRA
                rw [List.cons_append] at hh
                exact (List.perm_middle.symm).nodup hh }
          have hmidF := processChildren_sound store tips gz hginv h acc hna
            inv.accClosed hparz (enum n.children) g rest hmid0 g2 roots2 hproc
          have hinv2 : SortInv gz g2 roots2 (h :: acc) :=
            { keys := hmidF.keys
              look := by
                intro x m hm
                rcases hmidF.look x m hm with ⟨nz2, hnz2, hx1, hx2, hiff2⟩
                refine ⟨nz2, hnz2, hx1, hx2, ?_⟩
                intro p
                rw [hiff2 p]
                constructor
                · rintro ⟨ha, hb, hc⟩
                  refine ⟨ha, ?_⟩
                  intro hmem
                  rcases List.mem_cons.mp hmem with rfl | hmem
                  · cases hc rfl
                  · exact hb hmem
                · rintro ⟨ha, hb⟩
                  exact ⟨ha, fun hc => hb (List.mem_cons_of_mem _ hc),
                    fun hph => absurd (hph ▸ List.mem_cons_self p acc) (hph ▸ hb)⟩
              rootsOK := hmidF.rootsOK
              accNode := by
                intro a ha
                rcases List.mem_cons.mp ha with rfl | ha
                · exact ⟨nz, hnz⟩
                · exact inv.accNode a ha
              nodupRA := hmidF.nodupRA
              accClosed := by
                intro a ha nz0 hnz0 p hp
                rcases List.mem_cons.mp ha with rfl | ha
                · exact List.mem_cons_of_mem _ (hparz nz0 hnz0 p hp)
                · exact List.mem_cons_of_mem _ (inv.accClosed a ha nz0 hnz0 p hp)
              accNoSelf := by
                intro a ha nz0 hnz0
                rcases List.mem_cons.mp ha with rfl | ha
                · intro hc
                  exact hna (hparz nz0 hnz0 a hc)
                · exact inv.accNoSelf a ha nz0 hnz0
              accPairwise := by
                rw [List.pairwise_cons]
                refine ⟨?_, inv.accPairwise⟩
                intro b hb nz0 hnz0 hc
                exact hna (inv.accClosed b hb nz0 hnz0 h hc) }
          exact ih g2 roots2 (h :: acc) hinv2 accF gF hrun

theorem sortInv_init (store : ObjectStore) (tips : List String) (gz : Graph)
    (hginv : GraphInv store tips gz) : SortInv gz gz (initRoots gz) [] := by
  have hroot : ∀ r ∈ initRoots gz, ∃ nz, lookupNode gz r = some nz ∧ nz.parents = [] := by
    intro r hr
    unfold initRoots at hr
    rw [List.mem_reverse] at hr
    rcases List.mem_map.mp hr with ⟨e, hef, hre⟩
    rcases List.mem_filter.mp hef with ⟨heg, hemp⟩
    have hlook : lookupNode gz e.1 = some e.2 :=
      lookupNode_of_mem_nodup gz e hginv.keysNodup heg
    have hkey : e.2.commit_hash = e.1 := hginv.hashEq e.1 e.2 hlook
    have hre2 : r = e.1 := by rw [← hre, hkey]
    rw [hre2]
    exact ⟨e.2, hlook, by simpa using hemp⟩
  have hnd : (initRoots gz).Nodup := by
    unfold initRoots
    rw [List.nodup_reverse]
    have hmapeq : (gz.filter (fun e => e.2.parents.isEmpty)).map (fun e => e.2.commit_hash)
        = (gz.filter (fun e => e.2.parents.isEmpty)).map (fun e => e.1) := by
      apply List.map_congr_left
      intro e he
      rcases List.mem_filter.mp he with ⟨heg, _⟩
      exact hginv.hashEq e.1 e.2 (lookupNode_of_mem_nodup gz e hginv.keysNodup heg)
    rw [hmapeq]
    have hsub : ((gz.filter (fun e => e.2.parents.isEmpty)).map (fun e => e.1)).Sublist
        (gz.map (fun e => e.1)) := (List.filter_sublist gz).map (fun e => e.1)
    exact hsub.nodup hginv.keysNodup
  exact
    { keys := rfl
      look := fun x n hx => ⟨n, hx, rfl, rfl, fun p => by simp⟩
      rootsOK := fun r hr => by
        rcases hroot r hr with ⟨nz, hnz, hemp⟩
        exact ⟨nz, hnz, by rw [hemp]; intro p hp; cases hp⟩
      accNode := fun a ha => absurd ha (List.not_mem_nil a)
      nodupRA := by simpa using hnd
      accClosed := fun a ha => absurd ha (List.not_mem_nil a)
      accNoSelf := fun a ha => absurd ha (List.not_mem_nil a)
      accPairwise := List.Pairwise.nil }

theorem runCore_ok (repo : RepoState) (enum : List String → List String)
    (order : List String) (gF : Graph) (heads : List (String × String))
    (hrun : runCore repo enum = .ok (order, gF, heads))
    (henum : ∀ l : List String, (enum l).Perm l) :
    heads = getBranches repo.refsHeads ∧
    ∃ g, getGraphR repo.store (getBranches repo.refsHeads) = .ok g ∧
      GraphInv repo.store ((getBranches repo.refsHeads).map (fun e => e.2)) g ∧
      order.Nodup ∧ (∀ x, x ∈ order ↔ ∃ n, lookupNode g x = some n) ∧
      order.Pairwise (fun x y => ∀ nz, lookupNode g y = some nz → x ∉ nz.parents) ∧
      (∀ a ∈ order, ∀ nz, lookupNode g a = some nz → a ∉ nz.parents) ∧
      (∀ x m, lookupNode gF x = some m → ∃ nz, lookupNode g x = some nz ∧
        m.children = nz.children ∧ m.commit_hash = nz.commit_hash) := by
  simp only [runCore] at hrun
  split at hrun
  · cases hrun
  · rename_i g hg
    split at hrun
    · cases hrun
    · cases hrun
    · rename_i o2 g2 hs
      have h3 := Except.ok.inj hrun
      have ho : o2 = order := congrArg (fun t => t.1) h3
      have hgF : g2 = gF := congrArg (fun t => t.2.1) h3
      have hh : getBranches repo.refsHeads = heads := congrArg (fun t => t.2.2) h3
      rw [ho, hgF] at hs
      rcases getGraphR_ok repo.store (getBranches repo.refsHeads) g hg with ⟨hginv, _⟩
      have hsound := sortLoop_sound repo.store
        ((getBranches repo.refsHeads).map (fun e => e.2)) g hginv enum henum
        (sortFuel g) g (initRoots g) []
        (sortInv_init repo.store ((getBranches repo.refsHeads).map (fun e => e.2)) g hginv)
        order gF hs
      exact ⟨hh.symm, g, hg, hginv, hsound⟩

/-- C2: on every successful run, the printed sequence (the sorted order handed
to the formatter, one identifier line per element) lists each commit reachable
by transitive parent traversal from the branch tips exactly once — the order
is duplicate-free and its members are exactly the reachable identifiers, so
the number of printed identifiers equals the number of distinct reachable
identifiers — and it runs newest to oldest: every commit appears strictly
before each of the parents its own object declares. -/
theorem c2_topological_output (repo : RepoState) (enum : List String → List String)
    (order : List String) (gF : Graph) (heads : List (String × String))
    (hrun : runCore repo enum = .ok (order, gF, heads))
    (henum : ∀ l : List String, (enum l).Perm l) :
    order.Nodup ∧
    (∀ x, x ∈ order ↔
      Reachable repo.store ((getBranches repo.refsHeads).map (fun e => e.2)) x) ∧
    (∀ i j (hi : i < order.length) (hj : j < order.length),
      order[j] ∈ declaredParents repo.store (order[i]) → i < j) := by
  rcases runCore_ok repo enum order gF heads hrun henum with
    ⟨hh, g, hg, hginv, hnd, hmem, hpw, hns, _⟩
  refine ⟨hnd, ?_, ?_⟩
  · intro x
    rw [hmem x]
    exact hginv.reachIff x
  · intro i j hi hj hmemp
    by_contra hij
    have hio : order[i] ∈ order := List.getElem_mem hi
    rcases (hmem (order[i])).mp hio with ⟨n, hn⟩
    have hparents : order[j] ∈ n.parents := by
      rw [hginv.parentsDecl _ n hn]
      exact List.mem_dedup.mpr hmemp
    rcases Nat.lt_or_ge j i with hji | hji
    · exact (List.pairwise_iff_getElem.mp hpw) j i hj hi hji n hn hparents
    · have hji2 : j = i := by omega
      subst hji2
      exact hns (order[j]) hio n hn hparents

/-- C5: after a successful load, parent/child edges are symmetric — every
parent a commit's object declares is in that commit's parent set and has a
node whose children set contains the commit — every branch tip and every
recorded parent has a node in the graph, and the loader's decode log (its
visited set) has exactly as many entries as the graph has nodes, which is what
the final visited-count check of `get_graph` enforces. -/
theorem c5_graph_invariants (store : ObjectStore) (heads : List (String × String))
    (g : Graph) (hok : getGraphR store heads = .ok g) :
    (∀ c n, lookupNode g c = some n →
      ∀ p ∈ declaredParents store c, p ∈ n.parents ∧
        ∃ pn, lookupNode g p = some pn ∧ c ∈ pn.children) ∧
    (∀ t ∈ heads.map (fun e => e.2), ∃ n, lookupNode g t = some n) ∧
    (∀ c n, lookupNode g c = some n → ∀ p ∈ n.parents, ∃ pn, lookupNode g p = some pn) ∧
    (∃ logF, loadLoop store (fuelBound store heads) (initVisit heads) [] [] [] =
      some (.ok g, logF) ∧ logF.Nodup ∧ logF.length = g.length) := by
  rcases getGraphR_ok store heads g hok with ⟨hginv, hlog⟩
  refine ⟨?_, hginv.tipsNode, ?_, hlog⟩
  · intro c n hc p hp
    refine ⟨?_, hginv.symmEdge c n hc p hp⟩
    rw [hginv.parentsDecl c n hc]
    exact List.mem_dedup.mpr hp
  · intro c n hc p hp
    rw [hginv.parentsDecl c n hc] at hp
    rcases hginv.symmEdge c n hc p (List.mem_dedup.mp hp) with ⟨pn, hpn, _⟩
    exact ⟨pn, hpn⟩

/-- C7: if any branch reference names a commit whose object file is absent
from the store, loading terminates with the `FileNotFoundError` of the single
attempted `open` (the loop has no retry and the first failing open propagates),
never with a silently empty or partial graph. -/
theorem c7_missing_object_fatal (store : ObjectStore) (heads : List (String × String))
    (hmiss : ∃ t ∈ heads.map (fun e => e.2), openObject store t = none) :
    ∃ hm, openObject store hm = none ∧
      getGraphR store heads = .error (.fileNotFound hm) :=
  getGraphR_missing store heads hmiss

/-- C10: on every finite object store — including stores whose commit objects
declare cyclic or self-referential parent edges — the loader's work-list
traversal completes within the statically computed fuel bound (one step per
initial tip plus one per parent line of any stored object), and the log of
decoded objects is duplicate-free: the visited-set check makes the loader
decode each object at most once, so loading never runs forever. -/
theorem c10_loader_terminates (store : ObjectStore) (heads : List (String × String)) :
    ∃ res logF, loadLoop store (fuelBound store heads) (initVisit heads) [] [] [] =
      some (res, logF) ∧ logF.Nodup := by
  have hsome := loadLoop_isSome store (fuelBound store heads) (initVisit heads) [] [] []
    (fun v hv => absurd hv (List.not_mem_nil v))
    (by rw [budget_nil]; simp [fuelBound])
  rcases Option.isSome_iff_exists.mp hsome with ⟨r, hr⟩
  rcases r with ⟨res, logF⟩
  have hsound := loadLoop_sound store (heads.map (fun e => e.2)) (fuelBound store heads)
    (initVisit heads) [] [] (loopInv_init store heads) res logF hr
  rcases hsound with ⟨gF2, _, _, hnd, _⟩ | ⟨hm2, _, _, hnd⟩
  · exact ⟨res, logF, hr, hnd⟩
  · exact ⟨res, logF, hr, hnd⟩

theorem str_append_assoc (a b c : String) : a ++ b ++ c = a ++ (b ++ c) := by
  apply String.ext
  simp [String.data_append]

theorem eq_nl_split : ("=\n" : String) = ("=") ++ ("\n") := rfl

theorem nl_eq_split : ("\n=" : String) = ("\n") ++ ("=") := rfl

theorem stickyBlock_eq (enum : List String → List String) (g : Graph)
    (order : List String) (h nxt : String) :
    stickyBlock enum g order h nxt
      = ("\n") ++ joinSpace (order.filter (fun oh => decide (h ∈ childrenOf g oh)))
        ++ ("=") ++ ("\n") ++ ("\n") ++ ("=") ++ joinSpace (enum (childrenOf g nxt)) := by
  unfold stickyBlock
  rw [eq_nl_split, nl_eq_split]
  simp only [str_append_assoc]

/-- C3 (amended): for every adjacent pair of the printed sequence, the sticky
block is emitted exactly when the current hash is not in the following
commit's children set, and the block's bytes are: a newline, the space-joined
nodes of the final sequence whose children contain the current hash (in
sequence order), `=`, a newline, a second newline (a blank line), then `=`
immediately followed by the space-joined children of the following commit
(in set iteration order); each commit's line ends with a final newline, and no
block follows the last commit. -/
theorem c3_sticky_block_format (repo : RepoState) (enum : List String → List String)
    (order : List String) (gF : Graph) (heads : List (String × String))
    (hrun : runCore repo enum = .ok (order, gF, heads)) :
    topoOrderCommits repo enum = .ok (String.join ((pairsWithNext order).map (fun pr =>
      pr.1 ++ branchTags heads pr.1 ++
        (match pr.2 with
         | none => ("")
         | some nxt =>
           if pr.1 ∈ childrenOf gF nxt then ("")
           else ("\n") ++ joinSpace (order.filter (fun oh => decide (pr.1 ∈ childrenOf gF oh)))
             ++ ("=") ++ ("\n") ++ ("\n") ++ ("=") ++ joinSpace (enum (childrenOf gF nxt)))
        ++ ("\n")))) := by
  simp only [topoOrderCommits, hrun]
  congr 1
  unfold formatOutput
  congr 1
  apply List.map_congr_left
  intro pr _
  obtain ⟨a, onxt⟩ := pr
  unfold formatChunk
  cases onxt with
  | none => rfl
  | some nxt =>
    simp only
    by_cases hc : a ∈ childrenOf gF nxt
    · rw [if_pos hc, if_pos hc]
    · rw [if_neg hc, if_neg hc, stickyBlock_eq]

theorem lexLe_iff (as : List Char) : ∀ bs, lexLe as bs = true ↔ ¬ List.Lex (· < ·) bs as := by
  induction as with
  | nil =>
    intro bs
    simp only [lexLe]
    constructor
    · intro _ hlex
      cases hlex
    · intro _
      trivial
  | cons a as ih =>
    intro bs
    cases bs with
    | nil =>
      simp only [lexLe]
      constructor
      · intro hc
        cases hc
      · intro hc
        exact absurd (List.Lex.nil) hc
    | cons b bs =>
      simp only [lexLe]
      by_cases hab : a < b
      · rw [if_pos hab]
        constructor
        · intro _ hlex
          cases hlex with
          | cons h => exact absurd hab (lt_irrefl _)
          | rel h => exact absurd hab (asymm h)
        · intro _
          rfl
      · rw [if_neg hab]
        by_cases hba : b < a
        · rw [if_pos hba]
          constructor
          · intro hc
            cases hc
          · intro hc
            exact absurd (List.Lex.rel hba) hc
        · rw [if_neg hba]
          rw [ih bs]
          have heq : b = a := le_antisymm (le_of_not_lt hab) (le_of_not_lt hba)
          subst heq
          constructor
          · intro hno hlex
            cases hlex with
            | cons h => exact hno h
            | rel h => exact absurd h (lt_irrefl _)
          · intro hno hlex
            exact hno (List.Lex.cons hlex)

theorem strLe_iff (a b : String) : strLe a b = true ↔ a ≤ b := by
  rw [String.le_iff_toList_le]
  unfold strLe
  rw [lexLe_iff]
  constructor
  · intro hno
    exact le_of_not_lt (fun hlt => hno hlt)
  · intro hle hlex
    exact not_lt_of_le hle hlex

/-- C9: the annotations after a commit's identifier are exactly the branch
names mapping to that identifier — a name is listed iff the branch mapping
contains that (name, identifier) pair — sorted lexicographically (the emitted
list is sorted under the code-point order on strings and is a permutation of
the matching names), each preceded by a single space; a commit referenced by
no branch gets the empty annotation. -/
theorem c9_branch_annotations (heads : List (String × String)) (h : String) :
    branchTags heads h =
      String.join ((List.insertionSort (fun a b => strLe a b = true)
        ((heads.filter (fun e => e.2 == h)).map (fun e => e.1))).map
          (fun name => (" ") ++ name)) ∧
    List.Sorted (fun a b : String => a ≤ b)
      (List.insertionSort (fun a b => strLe a b = true)
        ((heads.filter (fun e => e.2 == h)).map (fun e => e.1))) ∧
    (List.insertionSort (fun a b => strLe a b = true)
      ((heads.filter (fun e => e.2 == h)).map (fun e => e.1))).Perm
      ((heads.filter (fun e => e.2 == h)).map (fun e => e.1)) ∧
    (∀ nm, nm ∈ (heads.filter (fun e => e.2 == h)).map (fun e => e.1) ↔ (nm, h) ∈ heads) ∧
    ((heads.filter (fun e => e.2 == h)).map (fun e => e.1) = [] →
      branchTags heads h = ("")) := by
  have hnames : ∀ nm, nm ∈ (heads.filter (fun e => e.2 == h)).map (fun e => e.1)
      ↔ (nm, h) ∈ heads := by
    intro nm
    constructor
    · intro hm
      rcases List.mem_map.mp hm with ⟨e, hef, he1⟩
      rcases List.mem_filter.mp hef with ⟨heh, hev⟩
      have hev2 : e.2 = h := by simpa using hev
      have hee : e = (nm, h) := by
        cases e
        simp_all
      rw [← hee]
      exact heh
    · intro hm
      exact List.mem_map.mpr ⟨(nm, h), List.mem_filter.mpr ⟨hm, by simp⟩, rfl⟩
  have hfirst : branchTags heads h =
      String.join ((List.insertionSort (fun a b => strLe a b = true)
        ((heads.filter (fun e => e.2 == h)).map (fun e => e.1))).map
          (fun name => (" ") ++ name)) := by
    unfold branchTags
    by_cases hmem : h ∈ heads.map (fun e => e.2)
    · rw [if_pos hmem]
    · rw [if_neg hmem]
      have hnil : (heads.filter (fun e => e.2 == h)).map (fun e => e.1) = [] := by
        rw [List.map_eq_nil_iff, List.filter_eq_nil_iff]
        intro e he hev
        have : e.2 = h := by simpa using hev
        exact hmem (List.mem_map.mpr ⟨e, he, this⟩)
      rw [hnil]
      rfl
  haveI htot : IsTotal String (fun a b => strLe a b = true) :=
    ⟨fun a b => by
      rw [strLe_iff, strLe_iff]
      exact le_total a b⟩
  haveI htrans : IsTrans String (fun a b => strLe a b = true) :=
    ⟨fun a b c hab hbc => by
      rw [strLe_iff] at *
      exact le_trans hab hbc⟩
  refine ⟨hfirst, ?_, List.perm_insertionSort _ _, hnames, ?_⟩
  · have hs := List.sorted_insertionSort (fun a b => strLe a b = true)
      ((heads.filter (fun e => e.2 == h)).map (fun e => e.1))
    exact hs.imp (fun hab => (strLe_iff _ _).mp hab)
  · intro hnil
    rw [hfirst, hnil]
    rfl

/-- C6 (amended): when the `refs/heads` subtree is absent, `Path.rglob`
yields nothing, so the program proceeds with an empty branch mapping, loads an
empty graph, and completes normally with empty output — no fatal error is
raised. -/
theorem c6_missing_heads_empty_output (store : ObjectStore)
    (enum : List String → List String) :
    topoOrderCommits ⟨none, store⟩ enum = .ok ("") := by
  simp [topoOrderCommits, runCore, getGraphR, getBranches, initVisit, fuelBound,
    loadLoop, sortLoop, initRoots, sortFuel, formatOutput, pairsWithNext, graphKeys,
    String.join]

/-- C8 (amended): decoding a decompressed commit object's bytes never fails —
`decodeIgnore` is total — but a malformed byte (a stray continuation byte,
an overlong lead `0xC0`/`0xC1`, or a lead above `0xF4`) is dropped without a
trace: the decoded text of the remaining bytes is returned unchanged, with no
substitution character inserted. -/
theorem c8_decode_ignores_invalid (b : Nat) (bs : List Nat)
    (hb : (0x80 ≤ b ∧ b ≤ 0xC1) ∨ 0xF5 ≤ b) :
    decodeIgnore (b :: bs) = decodeIgnore bs := by
  rw [decodeIgnore.eq_def]
  dsimp only
  rw [if_neg (by omega)]
  rw [if_neg (by simp only [Bool.and_eq_true, decide_eq_true_eq]; omega)]
  rw [if_neg (by simp only [Bool.and_eq_true, decide_eq_true_eq]; omega)]
  rw [if_neg (by simp only [Bool.and_eq_true, decide_eq_true_eq]; omega)]

/-- C1: refuted — the program's stdout is not a function of the repository
state alone.  Set-iteration order (CPython hash-seed dependent) is an input
of this embedding; both enumerations below are faithful iterations of the
same sets (reversal is a permutation), yet on the two-branch repository they
produce different output bytes, so two runs on one unchanged repository can
print different bytes, contradicting the claimed determinism. -/
theorem c1_output_depends_on_set_order :
    (∀ l : List String, (List.reverse l).Perm l) ∧
    topoOrderCommits twoBranchRepo (fun l => l)
      ≠ topoOrderCommits twoBranchRepo (fun l => List.reverse l) :=
  ⟨fun l => List.reverse_perm l, by decide⟩

/-- C3 counterexample: on the two-branch repository the program's
discontinuity block reads `=`, newline, blank line, `=` — while the claim's
layout has no blank line — so the program's bytes differ from the claim's
prediction; both outputs are computed exactly. -/
theorem c3_blank_line_counterexample :
    topoOrderCommits twoBranchRepo (fun l => l)
        ≠ specTopoOrderCommits twoBranchRepo (fun l => l) ∧
    topoOrderCommits twoBranchRepo (fun l => l)
      = .ok (hashB ++ (" b2\n") ++ hashC ++ ("=\n\n=\n")
          ++ hashA ++ (" b1\n") ++ hashC ++ ("\n")) ∧
    specTopoOrderCommits twoBranchRepo (fun l => l)
      = .ok (hashB ++ (" b2\n") ++ hashC ++ ("=\n=\n")
          ++ hashA ++ (" b1\n") ++ hashC ++ ("\n")) :=
  ⟨by decide, by decide, by decide⟩

/-- Closed instance of the C3 block-format theorem on the two-branch
repository (the loop's hypothesis discharged by computation). -/
theorem c3_sticky_block_witness :
    runCore twoBranchRepo (fun l => l) = .ok (([hashB, hashA, hashC]),
      ([(hashB, (⟨hashB, [], []⟩ : CommitNode)),
        (hashC, (⟨hashC, [], [hashB, hashA]⟩ : CommitNode)),
        (hashA, (⟨hashA, [], []⟩ : CommitNode))]),
      ([(("b1"), hashA), (("b2"), hashB)])) ∧
    topoOrderCommits twoBranchRepo (fun l => l) = .ok (String.join
      ((pairsWithNext ([hashB, hashA, hashC])).map (fun pr =>
        pr.1 ++ branchTags ([(("b1"), hashA), (("b2"), hashB)]) pr.1 ++
          (match pr.2 with
           | none => ("")
           | some nxt =>
             if pr.1 ∈ childrenOf ([(hashB, (⟨hashB, [], []⟩ : CommitNode)),
                 (hashC, (⟨hashC, [], [hashB, hashA]⟩ : CommitNode)),
                 (hashA, (⟨hashA, [], []⟩ : CommitNode))]) nxt then ("")
             else ("\n") ++ joinSpace (([hashB, hashA, hashC]).filter
                 (fun oh => decide (pr.1 ∈ childrenOf
                   ([(hashB, (⟨hashB, [], []⟩ : CommitNode)),
                     (hashC, (⟨hashC, [], [hashB, hashA]⟩ : CommitNode)),
                     (hashA, (⟨hashA, [], []⟩ : CommitNode))]) oh)))
               ++ ("=") ++ ("\n") ++ ("\n") ++ ("=")
               ++ joinSpace (childrenOf ([(hashB, (⟨hashB, [], []⟩ : CommitNode)),
                   (hashC, (⟨hashC, [], [hashB, hashA]⟩ : CommitNode)),
                   (hashA, (⟨hashA, [], []⟩ : CommitNode))]) nxt))
          ++ ("\n")))) :=
  ⟨by decide, c3_sticky_block_format twoBranchRepo (fun l => l)
    ([hashB, hashA, hashC])
    ([(hashB, (⟨hashB, [], []⟩ : CommitNode)),
      (hashC, (⟨hashC, [], [hashB, hashA]⟩ : CommitNode)),
      (hashA, (⟨hashA, [], []⟩ : CommitNode))])
    ([(("b1"), hashA), (("b2"), hashB)]) (by decide)⟩

/-- Closed instance of the C2 topological-output theorem on the linear-chain
repository: the run succeeds and the order `[A, B]` is duplicate-free, is
exactly the reachable set, and lists every commit before its parents. -/
theorem c2_topological_witness :
    runCore chainRepo (fun l => l) = .ok (([hashA, hashB]),
      ([(hashA, (⟨hashA, [], []⟩ : CommitNode)),
        (hashB, (⟨hashB, [], [hashA]⟩ : CommitNode))]),
      ([(("main"), hashA)])) ∧
    (([hashA, hashB] : List String).Nodup ∧
      (∀ x, x ∈ ([hashA, hashB] : List String) ↔
        Reachable chainRepo.store
          ((getBranches chainRepo.refsHeads).map (fun e => e.2)) x) ∧
      (∀ i j (hi : i < ([hashA, hashB] : List String).length)
          (hj : j < ([hashA, hashB] : List String).length),
        ([hashA, hashB] : List String)[j] ∈
            declaredParents chainRepo.store (([hashA, hashB] : List String)[i]) →
          i < j)) :=
  ⟨by decide, c2_topological_output chainRepo (fun l => l) ([hashA, hashB])
    ([(hashA, (⟨hashA, [], []⟩ : CommitNode)),
      (hashB, (⟨hashB, [], [hashA]⟩ : CommitNode))])
    ([(("main"), hashA)]) (by decide) (fun l => List.Perm.refl l)⟩

/-- C4 counterexample: a commit object whose parent line separates the marker
from the hash with a tab, not a single space, still gets that parent recorded
(the loaded graph links `A` to parent `B`), while the claim's extraction — the
literal marker, one space, forty hex characters — finds no parent line in
that object's decoded text. -/
theorem c4_parent_regex_counterexample :
    getGraphR tabRepo.store (getBranches tabRepo.refsHeads) =
      .ok ([(hashA, (⟨hashA, [hashB], []⟩ : CommitNode)),
            (hashB, (⟨hashB, [], [hashA]⟩ : CommitNode))]) ∧
    specParentLines (decodeIgnore (asciiBytes (("parent\t") ++ hashB))) = [] ∧
    ([hashB] : List String) ≠ [] :=
  ⟨by decide, by decide, by decide⟩

/-- C4 (amended): on every successfully loaded graph, the parents recorded on
a commit's node are exactly the captures of the source's regex
`^parent\s([0-9a-f]\x7b40\x7d)$` under `re.IGNORECASE | re.MULTILINE` — one
arbitrary whitespace character after the marker, hex digits accepted in either
case — over the permissively decoded object bytes, with duplicates collapsed
to their first occurrence (the node stores the parents as a set, modelled
here by the dedup of the capture list in text order). -/
theorem c4_parent_extraction (store : ObjectStore) (heads : List (String × String))
    (g : Graph) (c : String) (n : CommitNode) (bs : List Nat)
    (hok : getGraphR store heads = .ok g) (hc : lookupNode g c = some n)
    (ho : openObject store c = some bs) :
    n.parents = (findallParents (decodeIgnore bs)).dedup := by
  rcases getGraphR_ok store heads g hok with ⟨hginv, _⟩
  rw [hginv.parentsDecl c n hc, declaredParents_of_open store c bs ho]

/-- Closed instance of the C4 extraction theorem on the linear-chain
repository: commit `A`'s node records exactly the dedup of the regex captures
of its decoded object text. -/
theorem c4_parent_extraction_witness :
    getGraphR chainRepo.store ([(("main"), hashA)]) =
      .ok ([(hashA, (⟨hashA, [hashB], []⟩ : CommitNode)),
            (hashB, (⟨hashB, [], [hashA]⟩ : CommitNode))]) ∧
    lookupNode ([(hashA, (⟨hashA, [hashB], []⟩ : CommitNode)),
        (hashB, (⟨hashB, [], [hashA]⟩ : CommitNode))]) hashA =
      some (⟨hashA, [hashB], []⟩ : CommitNode) ∧
    openObject chainRepo.store hashA = some (asciiBytes (("parent ") ++ hashB)) ∧
    (⟨hashA, [hashB], []⟩ : CommitNode).parents =
      (findallParents (decodeIgnore (asciiBytes (("parent ") ++ hashB)))).dedup :=
  ⟨by decide, by decide, by decide,
   c4_parent_extraction chainRepo.store ([(("main"), hashA)])
     ([(hashA, (⟨hashA, [hashB], []⟩ : CommitNode)),
       (hashB, (⟨hashB, [], [hashA]⟩ : CommitNode))])
     hashA (⟨hashA, [hashB], []⟩ : CommitNode)
     (asciiBytes (("parent ") ++ hashB)) (by decide) (by decide) (by decide)⟩

/-- Closed instance of the C5 invariants theorem on the linear-chain
repository: edges are symmetric, every tip and parent has a node, and the
decode log matches the node count. -/
theorem c5_graph_invariants_witness :
    getGraphR chainRepo.store ([(("main"), hashA)]) =
      .ok ([(hashA, (⟨hashA, [hashB], []⟩ : CommitNode)),
            (hashB, (⟨hashB, [], [hashA]⟩ : CommitNode))]) ∧
    ((∀ c n, lookupNode ([(hashA, (⟨hashA, [hashB], []⟩ : CommitNode)),
          (hashB, (⟨hashB, [], [hashA]⟩ : CommitNode))]) c = some n →
        ∀ p ∈ declaredParents chainRepo.store c, p ∈ n.parents ∧
          ∃ pn, lookupNode ([(hashA, (⟨hashA, [hashB], []⟩ : CommitNode)),
              (hashB, (⟨hashB, [], [hashA]⟩ : CommitNode))]) p = some pn ∧
            c ∈ pn.children) ∧
      (∀ t ∈ ([(("main"), hashA)] : List (String × String)).map (fun e => e.2),
        ∃ n, lookupNode ([(hashA, (⟨hashA, [hashB], []⟩ : CommitNode)),
            (hashB, (⟨hashB, [], [hashA]⟩ : CommitNode))]) t = some n) ∧
      (∀ c n, lookupNode ([(hashA, (⟨hashA, [hashB], []⟩ : CommitNode)),
            (hashB, (⟨hashB, [], [hashA]⟩ : CommitNode))]) c = some n →
        ∀ p ∈ n.parents, ∃ pn, lookupNode
            ([(hashA, (⟨hashA, [hashB], []⟩ : CommitNode)),
              (hashB, (⟨hashB, [], [hashA]⟩ : CommitNode))]) p = some pn) ∧
      (∃ logF, loadLoop chainRepo.store
          (fuelBound chainRepo.store ([(("main"), hashA)]))
          (initVisit ([(("main"), hashA)])) [] [] [] =
        some (.ok ([(hashA, (⟨hashA, [hashB], []⟩ : CommitNode)),
                    (hashB, (⟨hashB, [], [hashA]⟩ : CommitNode))]), logF) ∧
        logF.Nodup ∧
        logF.length = ([(hashA, (⟨hashA, [hashB], []⟩ : CommitNode)),
          (hashB, (⟨hashB, [], [hashA]⟩ : CommitNode))] : Graph).length)) :=
  ⟨by decide, c5_graph_invariants chainRepo.store ([(("main"), hashA)])
    ([(hashA, (⟨hashA, [hashB], []⟩ : CommitNode)),
      (hashB, (⟨hashB, [], [hashA]⟩ : CommitNode))]) (by decide)⟩

/-- C6 counterexample: with the `refs/heads` subtree absent the program does
not fail — it completes normally and prints nothing. -/
theorem c6_missing_heads_counterexample :
    topoOrderCommits noHeadsRepo (fun l => l) = .ok ("") := by
  decide

/-- Closed instance of the C7 fatal-missing-object theorem: a branch file
names `A` but the store holds no object for it, and loading reports exactly
`FileNotFoundError` for `A`. -/
theorem c7_missing_object_witness :
    (∃ t ∈ ([(("main"), hashA)] : List (String × String)).map (fun e => e.2),
      openObject ([] : ObjectStore) t = none) ∧
    (∃ hm, openObject ([] : ObjectStore) hm = none ∧
      getGraphR ([] : ObjectStore) ([(("main"), hashA)]) =
        .error (.fileNotFound hm)) :=
  ⟨⟨hashA, by decide, rfl⟩,
   c7_missing_object_fatal ([] : ObjectStore) ([(("main"), hashA)])
     ⟨hashA, by decide, rfl⟩⟩

/-- C8 counterexample: the byte `0xFF` followed by `'a'` decodes to just
`'a'` — the invalid byte is dropped, and no substitution character
`U+FFFD` appears anywhere in the decoded text. -/
theorem c8_decode_counterexample :
    decodeIgnore [255, 97] = [('a')] ∧
    ('�') ∉ decodeIgnore [255, 97] :=
  ⟨by decide, by decide⟩

/-- Closed instance of the C8 dropped-byte theorem at the stray byte `0xFF`
before the text `"a"`. -/
theorem c8_decode_witness :
    ((0x80 ≤ 255 ∧ 255 ≤ 0xC1) ∨ 0xF5 ≤ 255) ∧
    decodeIgnore (255 :: [97]) = decodeIgnore [97] :=
  ⟨Or.inr (by decide), c8_decode_ignores_invalid 255 [97] (Or.inr (by decide))⟩
